import Mathlib

/-!
Verification of the three SAT-deciding engines of the repository
(`scripts/dp.py`, `scripts/resolution.py`, `scripts/dpll.py`) against their
natural-language specification.

Shallow embedding conventions:
* a literal is an `ℤ` (Python `int`);
* the DPLL engine works on `List (List ℤ)` clauses and a `List ℤ` assignment,
  mirroring the Python lists it receives (`as_sets=False` in its runner);
* the DP and Resolution engines work on `Finset ℤ` clauses, mirroring the
  Python `set`/`frozenset` clauses they receive (`as_sets=True`);
* Python `while` loops / recursion are rendered with an explicit fuel
  parameter (structural recursion), together with sufficiency lemmas showing
  the chosen fuel never runs out, so every operation is executable and total.
-/

namespace SatSolve

/-! ## Semantics: valuations and satisfaction

A valuation assigns a truth value to every (positive) variable; a literal
`l` is true when `l > 0` and its variable is true, or `l < 0` and its
variable is false.  This is the standard reading of the signed-integer
literals of the data model. -/

/-- Truth of a literal under a valuation of the positive variables. -/
def litTrue (f : ℤ → Bool) (l : ℤ) : Bool :=
  if 0 < l then f l else !f (-l)

/-- A clause (as a list of literals) is satisfied if some literal is true. -/
def clauseSatL (f : ℤ → Bool) (c : List ℤ) : Prop :=
  ∃ l ∈ c, litTrue f l = true

/-- A formula given as a list of list-clauses is satisfied by `f`. -/
def formulaSatL (f : ℤ → Bool) (F : List (List ℤ)) : Prop :=
  ∀ c ∈ F, clauseSatL f c

/-- Satisfiability of a list-of-lists formula. -/
def SatL (F : List (List ℤ)) : Prop := ∃ f, formulaSatL f F

/-- A clause (as a finite set of literals) is satisfied by `f`. -/
def clauseSat (f : ℤ → Bool) (c : Finset ℤ) : Prop :=
  ∃ l ∈ c, litTrue f l = true

/-- A formula given as a list of set-clauses is satisfied by `f`. -/
def formulaSat (f : ℤ → Bool) (F : List (Finset ℤ)) : Prop :=
  ∀ c ∈ F, clauseSat f c

/-- Satisfiability of a list-of-sets formula. -/
def Sat (F : List (Finset ℤ)) : Prop := ∃ f, formulaSat f F

/-! ## The DPLL engine (`scripts/dpll.py`) -/

/-- `simplify(clauses, current_assignment)` from `dpll.py` lines 24-33:
drop every clause one of whose literals is in the assignment, delete from the
remaining clauses every literal whose negation is in the assignment, and
signal a conflict (`None`) as soon as a clause becomes empty. -/
def simplify : List (List ℤ) → List ℤ → Option (List (List ℤ))
  | [], _ => some []
  | c :: cs, a =>
    if ∃ l ∈ c, l ∈ a then simplify cs a
    else
      let c2 := c.filter (fun l => decide (-l ∉ a))
      if c2 = [] then none
      else (simplify cs a).map (fun r => c2 :: r)

/-- `find_unit_clause(clauses)` from `dpll.py` lines 36-40: the single
literal of the first clause of length 1, if any. -/
def findUnitClause (cs : List (List ℤ)) : Option ℤ :=
  (cs.find? (fun c => c.length == 1)).bind (fun c => c.head?)

/-- The distinct literals occurring in `cs`, in first-occurrence order.
This models the insertion order of the Python `counter` dict of
`find_pure_literals` (`dpll.py` lines 43-47). -/
def litsInOrder (cs : List (List ℤ)) : List ℤ :=
  cs.foldl (fun acc c => c.foldl (fun acc2 l => if l ∈ acc2 then acc2 else acc2 ++ [l]) acc) []

/-- `find_pure_literals(clauses)` from `dpll.py` lines 43-52: the literals
occurring in the clauses whose negation occurs in no clause. -/
def findPureLiterals (cs : List (List ℤ)) : List ℤ :=
  (litsInOrder cs).filter (fun l => decide (-l ∉ litsInOrder cs))

/-- `choose_literal(clauses)` from `dpll.py` lines 55-59: the absolute value
of the first literal of the first nonempty clause. -/
def chooseLiteral (cs : List (List ℤ)) : Option ℤ :=
  (cs.findSome? (fun c => c.head?)).map (fun l => |l|)

/-- Outcome of the unit-propagation loop (`dpll.py` lines 70-76): either a
conflict, or the propagated clause list; in both cases `us` records the unit
literals appended (in order) to `current_assignment` by the loop. -/
inductive UnitRes : Type
  | conflict (us : List ℤ)
  | ok (cs : List (List ℤ)) (us : List ℤ)
  deriving DecidableEq, Repr

/-- The unit-propagation `while` loop of `dpll.py` lines 70-76, with fuel. -/
def unitPropFuel : Nat → List (List ℤ) → List ℤ → Option UnitRes
  | 0, _, _ => none
  | n + 1, cs, us =>
    match findUnitClause cs with
    | none => some (.ok cs us)
    | some u =>
      match simplify cs [u] with
      | none => some (.conflict (us ++ [u]))
      | some cs2 => unitPropFuel n cs2 (us ++ [u])

/-- The main recursion of `dpll(clauses, current_assignment)`
(`dpll.py` lines 62-97), with fuel for the branch recursion.  The result
mirrors the Python pair: `(False, None)` or `(True, assignment)`. -/
def dpllFuel : Nat → List (List ℤ) → List ℤ → Option (Bool × Option (List ℤ))
  | 0, _, _ => none
  | n + 1, cs, a =>
    match simplify cs a with
    | none => some (false, none)
    | some [] => some (true, some a)
    | some cs0 =>
      match unitPropFuel (cs0.length + 1) cs0 [] with
      | none => none
      | some (.conflict _) => some (false, none)
      | some (.ok cs1 us) =>
        let ps := findPureLiterals cs1
        match simplify cs1 ps with
        | none => some (false, none)
        | some cs2 =>
          match chooseLiteral cs2 with
          | none => some (true, some (a ++ us ++ ps))
          | some v =>
            match dpllFuel n cs2 (a ++ us ++ ps ++ [v]) with
            | none => none
            | some (true, r) => some (true, r)
            | some (false, _) =>
              match dpllFuel n cs2 (a ++ us ++ ps ++ [-v]) with
              | none => none
              | some (true, r) => some (true, r)
              | some (false, _) => some (false, none)

/-- The distinct literals of a clause list, as a finite set. -/
def litsOfL (cs : List (List ℤ)) : Finset ℤ :=
  cs.foldr (fun c acc => acc ∪ c.toFinset) ∅

/-- The distinct variables (absolute values of literals) of a clause list. -/
def varsOfL (cs : List (List ℤ)) : Finset ℤ :=
  (litsOfL cs).image (fun l => |l|)

/-- Fuel bound for `dpllFuel`: one more than the number of distinct
variables left after the entry simplification (each branch level eliminates
the branched variable, see `dpllFuel_suff`). -/
def dpllMeasure (cs : List (List ℤ)) (a : List ℤ) : Nat :=
  (varsOfL ((simplify cs a).getD [])).card

/-- `dpll(clauses, current_assignment)` (`dpll.py` lines 62-97) as a total
function: `dpllFuel` run with provably sufficient fuel. -/
def dpll (cs : List (List ℤ)) (a : List ℤ) : Bool × Option (List ℤ) :=
  (dpllFuel (dpllMeasure cs a + 1) cs a).getD (false, none)

/-- The per-clause action of `simplify` (proof helper). -/
def clauseSimp (a : List ℤ) (c : List ℤ) : Option (List ℤ) :=
  if (∃ l ∈ c, l ∈ a) ∨ c.filter (fun l => decide (-l ∉ a)) = [] then none
  else some (c.filter (fun l => decide (-l ∉ a)))

/-- The value held by the caller's `current_assignment` list after
`dpll(clauses, current_assignment)` returns: the Python code appends the
unit-propagated literals (line 72) and the pure literals (line 81) to the
very list object the caller passed in, so the caller's list is mutated in
place by those appends (the branch recursion at line 93 passes fresh lists
and does not touch it).  The `none` fuel case is unreachable
(`unitPropFuel_isSome`). -/
def dpllCallerList (cs : List (List ℤ)) (a : List ℤ) : List ℤ :=
  match simplify cs a with
  | none => a
  | some [] => a
  | some cs0 =>
    match unitPropFuel (cs0.length + 1) cs0 [] with
    | none => a
    | some (.conflict us) => a ++ us
    | some (.ok cs1 us) => a ++ us ++ findPureLiterals cs1

/-- An assignment is consistent when it contains no literal together with
its negation (the Assignment invariant of the data model). -/
def consistentA (b : List ℤ) : Prop := ∀ l ∈ b, -l ∉ b

/-- One recursive call of `dpll` (`dpll.py` line 93): the relation between
the `(clauses, current_assignment)` pair of a call and the pair passed to a
direct recursive sub-call in its branch loop. -/
inductive DpllStep : List (List ℤ) × List ℤ → List (List ℤ) × List ℤ → Prop
  | branch {cs : List (List ℤ)} {a : List ℤ} {cs0 cs1 : List (List ℤ)}
      {us : List ℤ} {cs2 : List (List ℤ)} {v w : ℤ} :
      simplify cs a = some cs0 → cs0 ≠ [] →
      unitPropFuel (cs0.length + 1) cs0 [] = some (.ok cs1 us) →
      simplify cs1 (findPureLiterals cs1) = some cs2 →
      chooseLiteral cs2 = some v →
      w = v ∨ w = -v →
      DpllStep (cs, a) (cs2, a ++ us ++ findPureLiterals cs1 ++ [w])

/-! ## The DP engine (`scripts/dp.py`) -/

/-- `is_tautology(clause)` from `dp.py` lines 25-26 (the same check appears
inline in `resolution.py` line 28): the clause contains some literal
together with its negation. -/
def isTaut (c : Finset ℤ) : Prop := ∃ l ∈ c, -l ∈ c

instance : DecidablePred isTaut :=
  fun c => inferInstanceAs (Decidable (∃ l ∈ c, -l ∈ c))

/-- `resolve(clause1, clause2, variable)` from `dp.py` lines 29-31: the
literals of `clause1` other than `variable` joined with the literals of
`clause2` other than `-variable`; tautological resolvents are discarded. -/
def dpResolve (c1 c2 : Finset ℤ) (v : ℤ) : Option (Finset ℤ) :=
  let r := c1.erase v ∪ c2.erase (-v)
  if isTaut r then none else some r

/-- A working clause of the DP loop.  The Boolean flag records whether the
clause is a Python `list` (a resolvent built by `resolve`, a `list(set(...))`)
or one of the input `set` clauses: `dp`'s empty-clause test `[] in formula`
(`dp.py` line 50) compares with `==`, and in Python a list is never equal to
a set, so only an empty list-resolvent can make it fire. -/
def hasEmptyListClause (F : List (Bool × Finset ℤ)) : Prop :=
  ∃ c ∈ F, c.1 = true ∧ c.2 = ∅

instance : DecidablePred hasEmptyListClause :=
  fun F => inferInstanceAs (Decidable (∃ c ∈ F, c.1 = true ∧ c.2 = ∅))

/-- One elimination round of `dp` (`dp.py` lines 38-49): collect the clauses
containing `v` and those containing `-v`, resolve every such pair, and
replace the formula by the clauses mentioning neither polarity plus the new
resolvents (flagged as lists). -/
def dpRound (v : ℤ) (F : List (Bool × Finset ℤ)) : List (Bool × Finset ℤ) :=
  let pos := F.filter (fun c => decide (v ∈ c.2))
  let neg := F.filter (fun c => decide (-v ∈ c.2))
  let news := pos.flatMap (fun c1 => neg.filterMap (fun c2 =>
    (dpResolve c1.2 c2.2 v).map (fun r => (true, r))))
  F.filter (fun c => decide (v ∉ c.2) && decide (-v ∉ c.2)) ++ news

/-- The variable-elimination loop of `dp` (`dp.py` lines 37-52): one round
per variable of the worklist, stopping with UNSAT when an empty
list-resolvent appears. -/
def dpLoop : List ℤ → List (Bool × Finset ℤ) → Bool
  | [], _ => true
  | v :: vs, F =>
    let F2 := dpRound v F
    if hasEmptyListClause F2 then false else dpLoop vs F2

/-- All literals of a list-of-sets formula. -/
def litUniv (F : List (Finset ℤ)) : Finset ℤ := F.foldr (fun c acc => acc ∪ c) ∅

/-- The variable set of the formula (`dp.py` line 36). -/
def dpVars (F : List (Finset ℤ)) : Finset ℤ :=
  (litUniv F).image (fun l => |l|)

/-- The elements of a finite set of integers listed in ascending order,
extracted min-first with fuel (`s.card` steps always suffice). -/
def ascListFuel : Nat → Finset ℤ → List ℤ
  | 0, _ => []
  | n + 1, s =>
    if h : s.Nonempty then s.min' h :: ascListFuel n (s.erase (s.min' h))
    else []

/-- The worklist of variables `dp` pops, in ascending order. -/
def dpWorklist (s : Finset ℤ) : List ℤ := ascListFuel s.card s

/-- `dp(clauses)` from `dp.py` lines 34-53.  Python's `variables.pop()`
picks an unspecified element of the set; the model fixes the ascending
order of the variables (the order CPython exhibits for small ints). -/
def dp (F : List (Finset ℤ)) : Bool :=
  dpLoop (dpWorklist (dpVars F)) (F.map (fun c => (false, c)))

/-- The number of elimination rounds the `dp` loop executes (for the
termination-bound claim C7): one round per worklist variable, stopping
early when the empty-clause check fires. -/
def dpLoopRounds : List ℤ → List (Bool × Finset ℤ) → Nat
  | [], _ => 0
  | v :: vs, F =>
    let F2 := dpRound v F
    if hasEmptyListClause F2 then 1 else 1 + dpLoopRounds vs F2

/-- The loop states `(remaining worklist, current formula)` visited by `dp`
on input `F` (`dp.py` lines 37-52). -/
inductive DpState (F : List (Finset ℤ)) : List ℤ → List (Bool × Finset ℤ) → Prop
  | init : DpState F (dpWorklist (dpVars F)) (F.map (fun c => (false, c)))
  | step {v : ℤ} {vs : List ℤ} {G : List (Bool × Finset ℤ)} :
      DpState F (v :: vs) G → ¬ hasEmptyListClause (dpRound v G) →
      DpState F vs (dpRound v G)

/-! ## The Resolution engine (`scripts/resolution.py`) -/

/-- `resolve_clauses(clause1, clause2)` from `resolution.py` lines 24-31:
scan the literals of `clause1`; at the first one whose negation is in
`clause2`, build `(clause1 ∪ clause2) minus the two pivot literals` and
return it unless it is a tautology.  Python iterates the `frozenset` in an
unspecified order; the model takes the smallest clashing literal (the
first clash under ascending iteration) — the result is order-independent,
since with two or more clashing pairs every candidate resolvent keeps the
other clashing pair and is discarded as a tautology
(`resolveClauses_char`). -/
def resolveClauses (c1 c2 : Finset ℤ) : Option (Finset ℤ) :=
  let clash := c1.filter (fun l => decide (-l ∈ c2))
  if h : clash.Nonempty then
    let l := clash.min' h
    let r := (c1 ∪ c2) \ ({l, -l} : Finset ℤ)
    if isTaut r then none else some r
  else none

/-- The deduplicated known-clause set is seeded with all input clauses
(`resolution.py` line 35). -/
def knownInit (F : List (Finset ℤ)) : Finset (Finset ℤ) := F.toFinset

/-- Some pair of distinct known clauses resolves to the empty clause — the
`return False` of `resolution.py` lines 43-44. -/
def producedEmpty (S : Finset (Finset ℤ)) : Prop :=
  ∃ c1 ∈ S, ∃ c2 ∈ S, c1 ≠ c2 ∧ resolveClauses c1 c2 = some ∅

instance : DecidablePred producedEmpty :=
  fun S => inferInstanceAs
    (Decidable (∃ c1 ∈ S, ∃ c2 ∈ S, c1 ≠ c2 ∧ resolveClauses c1 c2 = some ∅))

/-- The nonempty resolvents of all pairs of distinct known clauses
(`new_resolvents`, `resolution.py` lines 37-45).  Python scans each
unordered pair `{i, j}` once; the model scans ordered pairs, which yields
the same set because `resolveClauses` is symmetric. -/
def newResolvents (S : Finset (Finset ℤ)) : Finset (Finset ℤ) :=
  S.biUnion (fun c1 => S.biUnion (fun c2 =>
    if c1 = c2 then ∅
    else
      match resolveClauses c1 c2 with
      | none => ∅
      | some r => if r = ∅ then ∅ else {r}))

/-- The saturation loop of `resolution` (`resolution.py` lines 36-48), with
fuel.  The Python test `new_resolvents.issubset(known_clauses) or not
new_resolvents` is the subset test alone, since `∅ ⊆ S` always holds. -/
def resLoopFuel : Nat → Finset (Finset ℤ) → Option Bool
  | 0, _ => none
  | n + 1, S =>
    if producedEmpty S then some false
    else if newResolvents S ⊆ S then some true
    else resLoopFuel n (S ∪ newResolvents S)

/-- `resolution(clauses_set)` from `resolution.py` lines 34-48: the
saturation loop run with provably sufficient fuel (the known set grows
strictly inside the powerset of the literal universe,
`resLoopFuel_isSome`). -/
def resolution (F : List (Finset ℤ)) : Bool :=
  (resLoopFuel (2 ^ (litUniv F).card + 1) (knownInit F)).getD true

/-- The successive known-clause sets of the saturation loop (frozen once
the loop would exit), for the monotonicity claim C6. -/
def resKnownIter (F : List (Finset ℤ)) : Nat → Finset (Finset ℤ)
  | 0 => knownInit F
  | k + 1 =>
    let S := resKnownIter F k
    if producedEmpty S then S
    else if newResolvents S ⊆ S then S
    else S ∪ newResolvents S

/-! ## The DIMACS parser (`parse_cnf_file`, identical in all three scripts)

A Python `str` is modelled as its sequence of characters (`List Char`), so
that stripping, splitting and integer parsing are plain structural
recursion. -/

/-- CPython's whitespace predicate (`Py_UNICODE_ISSPACE`) restricted to the
ASCII range: `\t \n \v \f \r` (9-13), the separators `\x1c`-`\x1f` (28-31)
and the space (32).  `str.strip()` and `str.split()` both use this set.
Outside ASCII Python additionally treats `\x85`, `\xa0` and the Unicode
space categories as whitespace; those characters lie outside the ASCII
input scope of this development. -/
def pyWhite (c : Char) : Bool :=
  c.toNat == 9 || c.toNat == 10 || c.toNat == 11 || c.toNat == 12 ||
    c.toNat == 13 || c.toNat == 28 || c.toNat == 29 || c.toNat == 30 ||
    c.toNat == 31 || c.toNat == 32

/-- An ASCII character (code point below 128). -/
def asciiChar (c : Char) : Bool := c.toNat < 128

/-- Python `str.strip()`: drop whitespace from both ends. -/
def pyStrip (l : List Char) : List Char :=
  ((l.dropWhile pyWhite).reverse.dropWhile pyWhite).reverse

/-- Helper of `pyWords`: accumulate the current word (reversed). -/
def pyWordsAux : List Char → List Char → List (List Char)
  | [], acc => if acc = [] then [] else [acc.reverse]
  | c :: rest, acc =>
    if pyWhite c then
      if acc = [] then pyWordsAux rest []
      else acc.reverse :: pyWordsAux rest []
    else pyWordsAux rest (c :: acc)

/-- Python `str.split()` with no argument: split on whitespace runs,
dropping empty tokens. -/
def pyWords (l : List Char) : List (List Char) := pyWordsAux l []

/-- The value of an ASCII decimal digit. -/
def pyDigit? (c : Char) : Option Nat :=
  if '0' ≤ c ∧ c ≤ '9' then some (c.toNat - '0'.toNat) else none

/-- Helper of `pyDigits?`: continue a digit run after at least one digit
has been read.  A single underscore may stand between two digits (PEP 515:
`digit (["_"] digit)*`); a trailing, leading-in-run or doubled underscore
fails, exactly as CPython `int()` rejects it. -/
def pyDigitsAux : Nat → List Char → Option Nat
  | acc, [] => some acc
  | acc, '_' :: c :: cs =>
    match pyDigit? c with
    | some d => pyDigitsAux (acc * 10 + d) cs
    | none => none
  | acc, c :: cs =>
    match pyDigit? c with
    | some d => pyDigitsAux (acc * 10 + d) cs
    | none => none

/-- The magnitude part of CPython `int()`: a nonempty decimal digit run
with optional single underscores between digits. -/
def pyDigits? : List Char → Option Nat
  | [] => none
  | c :: cs =>
    match pyDigit? c with
    | some d => pyDigitsAux d cs
    | none => none

/-- Python `int(token)` on an ASCII token as produced by `split()` (hence
containing no whitespace, so `int()`'s surrounding-whitespace stripping is
moot): an optional `+`/`-` sign followed by decimal digits with optional
single underscores between digits.  Unicode digit forms lie outside the
ASCII input scope of this development. -/
def pyInt? : List Char → Option ℤ
  | '-' :: rest => (pyDigits? rest).map (fun n => -(n : ℤ))
  | '+' :: rest => (pyDigits? rest).map (fun n => (n : ℤ))
  | rest => (pyDigits? rest).map (fun n => (n : ℤ))

/-- One iteration of the `parse_cnf_file` loop (`dp.py` lines 10-21):
strip the line; skip it when blank or starting with `c`, `p` or `%`; parse
all tokens as integers (any failure skips the whole line — the
`ValueError` branch); strip one trailing `0`; drop the line if no literal
remains. -/
def parseLine (line : List Char) : Option (List ℤ) :=
  let l := pyStrip line
  if l.head? = some 'c' ∨ l.head? = some 'p' ∨ l.head? = some '%' ∨ l = []
  then none
  else
    match (pyWords l).mapM pyInt? with
    | none => none
    | some lits =>
      let lits2 :=
        if lits ≠ [] ∧ lits.getLast? = some 0 then lits.dropLast else lits
      if lits2 = [] then none else some lits2

/-- `parse_cnf_file` over the lines of the input (`dp.py` lines 7-22); the
`as_sets=True` variant used by `dp` and `resolution` is `toSets` of this. -/
def parseCnfLines (ls : List (List Char)) : List (List ℤ) := ls.filterMap parseLine

/-- The `as_sets=True` reading of a parsed formula (`set(literals)`). -/
def toSets (F : List (List ℤ)) : List (Finset ℤ) := F.map List.toFinset

/-- Modelled from the spec (for the refinement comparison of the Resolution
seeding): "maintain a growing set of known clauses ... seeded with the
input's non-tautological clauses" — the seed the specification prescribes,
to be compared with the code's `knownInit`. -/
def specNonTautSeed (F : List (Finset ℤ)) : Finset (Finset ℤ) :=
  (F.filter (fun c => decide (¬ isTaut c))).toFinset

/-! ### Basic lemmas about the DPLL building blocks -/

theorem mem_litsOfL {cs : List (List ℤ)} {l : ℤ} :
    l ∈ litsOfL cs ↔ ∃ c ∈ cs, l ∈ c := by
  induction cs with
  | nil => simp [litsOfL]
  | cons c cs ih =>
    have hrw : litsOfL (c :: cs) = litsOfL cs ∪ c.toFinset := rfl
    rw [hrw]
    constructor
    · intro h
      rcases Finset.mem_union.mp h with h1 | h2
      · rcases ih.mp h1 with ⟨d, hd, hl⟩
        exact ⟨d, List.mem_cons_of_mem _ hd, hl⟩
      · exact ⟨c, List.mem_cons_self _ _, List.mem_toFinset.mp h2⟩
    · rintro ⟨d, hd, hl⟩
      rw [Finset.mem_union]
      rcases List.mem_cons.mp hd with rfl | hd'
      · exact Or.inr (List.mem_toFinset.mpr hl)
      · exact Or.inl (ih.mpr ⟨d, hd', hl⟩)

theorem mem_varsOfL {cs : List (List ℤ)} {v : ℤ} :
    v ∈ varsOfL cs ↔ ∃ c ∈ cs, ∃ l ∈ c, |l| = v := by
  simp only [varsOfL, Finset.mem_image]
  constructor
  · rintro ⟨l, hl, rfl⟩
    rcases mem_litsOfL.mp hl with ⟨c, hc, hlc⟩
    exact ⟨c, hc, l, hlc, rfl⟩
  · rintro ⟨c, hc, l, hlc, rfl⟩
    exact ⟨l, mem_litsOfL.mpr ⟨c, hc, hlc⟩, rfl⟩

theorem varsOfL_mono {cs cs' : List (List ℤ)}
    (h : ∀ c' ∈ cs', ∃ c ∈ cs, ∀ l ∈ c', l ∈ c) : varsOfL cs' ⊆ varsOfL cs := by
  intro v hv
  rcases mem_varsOfL.mp hv with ⟨c', hc', l, hl, rfl⟩
  rcases h c' hc' with ⟨c, hc, hsub⟩
  exact mem_varsOfL.mpr ⟨c, hc, l, hsub l hl, rfl⟩

/-- `simplify` as a `filterMap`, when it does not signal a conflict. -/
theorem simplify_eq_filterMap {cs : List (List ℤ)} {a : List ℤ} {cs' : List (List ℤ)}
    (h : simplify cs a = some cs') :
    cs' = cs.filterMap (clauseSimp a) := by
  induction cs generalizing cs' with
  | nil =>
    simp only [simplify, Option.some.injEq] at h
    simp [← h]
  | cons c cs ih =>
    rw [simplify] at h
    by_cases hsat : ∃ l ∈ c, l ∈ a
    · rw [if_pos hsat] at h
      rw [List.filterMap_cons, show clauseSimp a c = none from if_pos (Or.inl hsat)]
      exact ih h
    · rw [if_neg hsat] at h
      by_cases hnil : c.filter (fun l => decide (-l ∉ a)) = []
      · rw [show (let c2 := c.filter (fun l => decide (-l ∉ a));
            if c2 = [] then none
            else (simplify cs a).map (fun r => c2 :: r)) =
            (none : Option (List (List ℤ))) from by rw [if_pos hnil]] at h
        exact absurd h (by simp)
      · rw [show (let c2 := c.filter (fun l => decide (-l ∉ a));
            if c2 = [] then none
            else (simplify cs a).map (fun r => c2 :: r)) =
            (simplify cs a).map
              (fun r => c.filter (fun l => decide (-l ∉ a)) :: r) from by
            rw [if_neg hnil]] at h
        rcases Option.map_eq_some'.mp h with ⟨r, hr, hrc⟩
        subst hrc
        rw [List.filterMap_cons,
          show clauseSimp a c = some (c.filter (fun l => decide (-l ∉ a))) from by
            unfold clauseSimp
            rw [if_neg (not_or.mpr ⟨hsat, hnil⟩)]]
        exact congrArg _ (ih hr)

/-- Every output clause of `simplify` comes from an input clause that is not
satisfied by the assignment, by deleting the falsified literals. -/
theorem simplify_mem {cs : List (List ℤ)} {a : List ℤ} {cs' : List (List ℤ)}
    (h : simplify cs a = some cs') {c' : List ℤ} (hc : c' ∈ cs') :
    ∃ c ∈ cs, (¬ ∃ l ∈ c, l ∈ a) ∧ c' = c.filter (fun l => decide (-l ∉ a)) := by
  rw [simplify_eq_filterMap h] at hc
  rcases List.mem_filterMap.mp hc with ⟨c, hcmem, hceq⟩
  unfold clauseSimp at hceq
  by_cases hcond : (∃ l ∈ c, l ∈ a) ∨ c.filter (fun l => decide (-l ∉ a)) = []
  · rw [if_pos hcond] at hceq; exact absurd hceq (by simp)
  · rw [if_neg hcond] at hceq
    exact ⟨c, hcmem, (not_or.mp hcond).1, (Option.some.inj hceq).symm⟩

/-- `simplify` never returns `some` with an empty clause in it. -/
theorem simplify_ne_nil {cs : List (List ℤ)} {a : List ℤ} {cs' : List (List ℤ)}
    (h : simplify cs a = some cs') {c' : List ℤ} (hc : c' ∈ cs') : c' ≠ [] := by
  rw [simplify_eq_filterMap h] at hc
  rcases List.mem_filterMap.mp hc with ⟨c, _, hceq⟩
  unfold clauseSimp at hceq
  by_cases hcond : (∃ l ∈ c, l ∈ a) ∨ c.filter (fun l => decide (-l ∉ a)) = []
  · rw [if_pos hcond] at hceq; exact absurd hceq (by simp)
  · rw [if_neg hcond] at hceq
    rw [← Option.some.inj hceq]
    exact (not_or.mp hcond).2

theorem simplify_length_le {cs : List (List ℤ)} {a : List ℤ} {cs' : List (List ℤ)}
    (h : simplify cs a = some cs') : cs'.length ≤ cs.length := by
  rw [simplify_eq_filterMap h]; exact List.length_filterMap_le _ _

theorem length_filterMap_lt {α β : Type} (f : α → Option β) (cs : List α)
    {c : α} (hc : c ∈ cs) (hnone : f c = none) :
    (cs.filterMap f).length < cs.length := by
  induction cs with
  | nil => cases hc
  | cons d cs ih =>
    rcases List.mem_cons.mp hc with rfl | hmem
    · rw [List.filterMap_cons, hnone]
      exact Nat.lt_succ_of_le (List.length_filterMap_le _ _)
    · rw [List.filterMap_cons]
      cases f d with
      | none => exact Nat.lt_succ_of_lt (ih hmem)
      | some b => simpa using Nat.succ_lt_succ (ih hmem)

/-- If some input clause is satisfied by the assignment, `simplify` drops it
and the clause count strictly decreases. -/
theorem simplify_length_lt {cs : List (List ℤ)} {a : List ℤ} {cs' : List (List ℤ)}
    (h : simplify cs a = some cs') {c : List ℤ} (hc : c ∈ cs)
    (hsat : ∃ l ∈ c, l ∈ a) : cs'.length < cs.length := by
  rw [simplify_eq_filterMap h]
  exact length_filterMap_lt _ cs hc (by unfold clauseSimp; rw [if_pos (Or.inl hsat)])

/-- Each output clause of `simplify` is (as a set of literals) contained in
some input clause. -/
theorem simplify_sub {cs : List (List ℤ)} {a : List ℤ} {cs' : List (List ℤ)}
    (h : simplify cs a = some cs') :
    ∀ c' ∈ cs', ∃ c ∈ cs, ∀ l ∈ c', l ∈ c := by
  intro c' hc'
  rcases simplify_mem h hc' with ⟨c, hc, _, rfl⟩
  exact ⟨c, hc, fun l hl => (List.mem_filter.mp hl).1⟩

/-- After simplifying with an assignment containing the literal `t`, the
variable `|t|` no longer occurs in the clause list. -/
theorem simplify_var_eliminated {cs : List (List ℤ)} {a : List ℤ}
    {cs' : List (List ℤ)} (h : simplify cs a = some cs') {t : ℤ} (ht : t ∈ a) :
    |t| ∉ varsOfL cs' := by
  intro hv
  rcases mem_varsOfL.mp hv with ⟨c', hc', l, hl, habs⟩
  rcases simplify_mem h hc' with ⟨c, _, hnsat, rfl⟩
  have hlc : l ∈ c := (List.mem_filter.mp hl).1
  have hlneg : -l ∉ a := by
    have := (List.mem_filter.mp hl).2
    simpa using this
  rcases abs_eq_abs.mp habs with rfl | rfl
  · exact hnsat ⟨l, hlc, ht⟩
  · exact hlneg (by simpa using ht)

/-- `findUnitClause` returns the literal of a genuine unit clause. -/
theorem findUnitClause_mem {cs : List (List ℤ)} {u : ℤ}
    (h : findUnitClause cs = some u) : [u] ∈ cs := by
  unfold findUnitClause at h
  rcases Option.bind_eq_some.mp h with ⟨c, hfind, hhead⟩
  have hc : c ∈ cs := List.mem_of_find?_eq_some hfind
  have hlen : c.length = 1 := by simpa using List.find?_some hfind
  rcases List.length_eq_one.mp hlen with ⟨x, rfl⟩
  cases Option.some.inj hhead
  exact hc

/-- The unit-propagation loop always finishes within `cs.length + 1` steps:
every propagation step strictly shrinks the clause list. -/
theorem unitPropFuel_isSome :
    ∀ (n : Nat) (cs : List (List ℤ)) (us : List ℤ), cs.length < n →
      (unitPropFuel n cs us).isSome := by
  intro n
  induction n with
  | zero => intro cs us h; cases h
  | succ n ih =>
    intro cs us h
    cases hu : findUnitClause cs with
    | none => simp [unitPropFuel, hu]
    | some u =>
      cases hs : simplify cs [u] with
      | none => simp [unitPropFuel, hu, hs]
      | some cs2 =>
        have hlt : cs2.length < cs.length :=
          simplify_length_lt hs (findUnitClause_mem hu)
            ⟨u, List.mem_singleton_self u, List.mem_singleton_self u⟩
        have := ih cs2 (us ++ [u]) (Nat.lt_of_lt_of_le hlt (Nat.lt_succ_iff.mp h))
        simpa [unitPropFuel, hu, hs] using this

/-- The clause list produced by unit propagation is clause-wise contained in
the input clause list. -/
theorem unitPropFuel_ok_sub :
    ∀ (n : Nat) (cs : List (List ℤ)) (us : List ℤ) {cs1 : List (List ℤ)}
      {us1 : List ℤ}, unitPropFuel n cs us = some (.ok cs1 us1) →
      ∀ c1 ∈ cs1, ∃ c ∈ cs, ∀ l ∈ c1, l ∈ c := by
  intro n
  induction n with
  | zero => intro cs us cs1 us1 h; cases h
  | succ n ih =>
    intro cs us cs1 us1 h
    cases hu : findUnitClause cs with
    | none =>
      simp only [unitPropFuel, hu, Option.some.injEq, UnitRes.ok.injEq] at h
      rw [← h.1]
      exact fun c1 hc1 => ⟨c1, hc1, fun l hl => hl⟩
    | some u =>
      cases hs : simplify cs [u] with
      | none => simp [unitPropFuel, hu, hs] at h
      | some cs2 =>
        simp only [unitPropFuel, hu, hs] at h
        intro c1 hc1
        rcases ih cs2 (us ++ [u]) h c1 hc1 with ⟨c2, hc2, hsub2⟩
        rcases simplify_sub hs c2 hc2 with ⟨c, hc, hsub⟩
        exact ⟨c, hc, fun l hl => hsub l (hsub2 l hl)⟩

/-- A chosen branching literal names a variable of the clause list. -/
theorem chooseLiteral_mem_vars {cs : List (List ℤ)} {v : ℤ}
    (h : chooseLiteral cs = some v) : v ∈ varsOfL cs := by
  unfold chooseLiteral at h
  rcases Option.map_eq_some'.mp h with ⟨l, hfind, rfl⟩
  rcases List.exists_of_findSome?_eq_some hfind with ⟨c, hc, hhead⟩
  exact mem_varsOfL.mpr ⟨c, hc, l, List.mem_of_mem_head? hhead, rfl⟩

/-- Core decrease argument: after branching on `v` (or `-v`), the measure of
the recursive call is strictly below the variable count of `cs2`. -/
theorem dpllMeasure_branch_lt {cs2 : List (List ℤ)} {v : ℤ} {x : List ℤ}
    (hvx : v ∈ x ∨ -v ∈ x) (hv : v ∈ varsOfL cs2) :
    dpllMeasure cs2 x < (varsOfL cs2).card := by
  have hvabs : |v| = v := by
    rcases mem_varsOfL.mp hv with ⟨c, _, l, _, rfl⟩
    exact abs_abs l
  have hsub : varsOfL ((simplify cs2 x).getD []) ⊆ (varsOfL cs2).erase v := by
    cases hs : simplify cs2 x with
    | none =>
      simp only [hs, Option.getD_none]
      intro w hw
      rcases mem_varsOfL.mp hw with ⟨c, hc, _⟩
      cases hc
    | some r =>
      simp only [hs, Option.getD_some]
      rw [Finset.subset_erase]
      refine ⟨varsOfL_mono (simplify_sub hs), ?_⟩
      rcases hvx with hvin | hvin
      · have := simplify_var_eliminated hs hvin
        rwa [hvabs] at this
      · have := simplify_var_eliminated hs hvin
        rwa [abs_neg, hvabs] at this
  calc dpllMeasure cs2 x ≤ ((varsOfL cs2).erase v).card := Finset.card_le_card hsub
    _ < (varsOfL cs2).card := by
        rw [Finset.card_erase_of_mem hv]
        exact Nat.sub_lt (Finset.card_pos.mpr ⟨v, hv⟩) Nat.one_pos

/-- Fuel sufficiency for `dpllFuel`: `dpllMeasure cs a + 1` steps always
produce a result (each branch level eliminates the branched variable). -/
theorem dpllFuel_isSome :
    ∀ (n : Nat) (cs : List (List ℤ)) (a : List ℤ), dpllMeasure cs a < n →
      (dpllFuel n cs a).isSome := by
  intro n
  induction n with
  | zero => intro cs a h; cases h
  | succ n ih =>
    intro cs a h
    cases hs : simplify cs a with
    | none => simp only [dpllFuel, hs, Option.isSome_some]
    | some cs0 =>
      cases cs0 with
      | nil => simp only [dpllFuel, hs, Option.isSome_some]
      | cons chd ctl =>
        have hmeas : dpllMeasure cs a = (varsOfL (chd :: ctl)).card := by
          simp [dpllMeasure, hs]
        rcases Option.isSome_iff_exists.mp
            (unitPropFuel_isSome ((chd :: ctl).length + 1) (chd :: ctl) []
              (Nat.lt_succ_self _)) with ⟨ur, hur⟩
        cases ur with
        | conflict us => simp only [dpllFuel, hs, hur, Option.isSome_some]
        | ok cs1 us =>
          cases hs2 : simplify cs1 (findPureLiterals cs1) with
          | none => simp only [dpllFuel, hs, hur, hs2, Option.isSome_some]
          | some cs2 =>
            cases hch : chooseLiteral cs2 with
            | none => simp only [dpllFuel, hs, hur, hs2, hch, Option.isSome_some]
            | some v =>
              have hvars2 : varsOfL cs2 ⊆ varsOfL (chd :: ctl) := by
                refine Finset.Subset.trans (varsOfL_mono (simplify_sub hs2)) ?_
                exact varsOfL_mono (unitPropFuel_ok_sub _ _ _ hur)
              have hvcs2 : v ∈ varsOfL cs2 := chooseLiteral_mem_vars hch
              have hcard : (varsOfL cs2).card ≤ dpllMeasure cs a := by
                rw [hmeas]; exact Finset.card_le_card hvars2
              have hlt1 : dpllMeasure cs2
                  (a ++ us ++ findPureLiterals cs1 ++ [v]) < n := by
                have := dpllMeasure_branch_lt
                  (x := a ++ us ++ findPureLiterals cs1 ++ [v])
                  (Or.inl (by simp)) hvcs2
                omega
              have hlt2 : dpllMeasure cs2
                  (a ++ us ++ findPureLiterals cs1 ++ [-v]) < n := by
                have := dpllMeasure_branch_lt
                  (x := a ++ us ++ findPureLiterals cs1 ++ [-v])
                  (Or.inr (by simp)) hvcs2
                omega
              rcases Option.isSome_iff_exists.mp (ih cs2 _ hlt1) with ⟨⟨b1, r1⟩, h1⟩
              cases b1 with
              | true => simp only [dpllFuel, hs, hur, hs2, hch, h1, Option.isSome_some]
              | false =>
                rcases Option.isSome_iff_exists.mp (ih cs2 _ hlt2) with ⟨⟨b2, r2⟩, h2⟩
                cases b2 <;>
                  simp only [dpllFuel, hs, hur, hs2, hch, h1, h2, Option.isSome_some]

/-- Fuel monotonicity: a result obtained with fuel `n` is stable under more
fuel. -/
theorem dpllFuel_mono :
    ∀ (n : Nat) {m : Nat} (cs : List (List ℤ)) (a : List ℤ)
      {r : Bool × Option (List ℤ)}, dpllFuel n cs a = some r → n ≤ m →
      dpllFuel m cs a = some r := by
  intro n
  induction n with
  | zero => intro m cs a r h; cases h
  | succ n ih =>
    intro m cs a r h hnm
    cases m with
    | zero => cases hnm
    | succ m =>
      have hnm' : n ≤ m := Nat.succ_le_succ_iff.mp hnm
      cases hs : simplify cs a with
      | none => simp only [dpllFuel, hs] at h ⊢; exact h
      | some cs0 =>
        cases cs0 with
        | nil => simp only [dpllFuel, hs] at h ⊢; exact h
        | cons chd ctl =>
          cases hur : unitPropFuel ((chd :: ctl).length + 1) (chd :: ctl) [] with
          | none =>
            simp only [dpllFuel, hs, hur] at h
            exact Option.noConfusion h
          | some ur =>
            cases ur with
            | conflict us => simp only [dpllFuel, hs, hur] at h ⊢; exact h
            | ok cs1 us =>
              cases hs2 : simplify cs1 (findPureLiterals cs1) with
              | none => simp only [dpllFuel, hs, hur, hs2] at h ⊢; exact h
              | some cs2 =>
                cases hch : chooseLiteral cs2 with
                | none => simp only [dpllFuel, hs, hur, hs2, hch] at h ⊢; exact h
                | some v =>
                  cases h1 : dpllFuel n cs2
                      (a ++ us ++ findPureLiterals cs1 ++ [v]) with
                  | none =>
                    simp only [dpllFuel, hs, hur, hs2, hch, h1] at h
                    exact Option.noConfusion h
                  | some br1 =>
                    obtain ⟨b1, r1⟩ := br1
                    cases b1 with
                    | true =>
                      simp only [dpllFuel, hs, hur, hs2, hch, h1,
                        ih _ _ h1 hnm'] at h ⊢
                      exact h
                    | false =>
                      cases h2 : dpllFuel n cs2
                          (a ++ us ++ findPureLiterals cs1 ++ [-v]) with
                      | none =>
                        simp only [dpllFuel, hs, hur, hs2, hch, h1, h2] at h
                        exact Option.noConfusion h
                      | some br2 =>
                        simp only [dpllFuel, hs, hur, hs2, hch, h1, h2,
                          ih _ _ h1 hnm', ih _ _ h2 hnm'] at h ⊢
                        exact h

/-- Any sufficient fuel computes `dpll`. -/
theorem dpllFuel_eq_dpll {n : Nat} {cs : List (List ℤ)} {a : List ℤ}
    (h : dpllMeasure cs a < n) : dpllFuel n cs a = some (dpll cs a) := by
  rcases Option.isSome_iff_exists.mp
      (dpllFuel_isSome (dpllMeasure cs a + 1) cs a (Nat.lt_succ_self _)) with ⟨r, hr⟩
  have : dpll cs a = r := by unfold dpll; rw [hr]; rfl
  rw [this]
  exact dpllFuel_mono _ _ _ hr h

/-! ### Pure literals, conflicts and assignment consistency -/

theorem foldl_insert_mem (c : List ℤ) (acc : List ℤ) (x : ℤ) :
    x ∈ c.foldl (fun acc2 l => if l ∈ acc2 then acc2 else acc2 ++ [l]) acc ↔
      x ∈ acc ∨ x ∈ c := by
  induction c generalizing acc with
  | nil => simp
  | cons y c ih =>
    rw [List.foldl_cons, ih]
    by_cases hy : y ∈ acc
    · rw [if_pos hy]
      constructor
      · rintro (h | h)
        · exact Or.inl h
        · exact Or.inr (List.mem_cons_of_mem _ h)
      · rintro (h | h)
        · exact Or.inl h
        · rcases List.mem_cons.mp h with rfl | h2
          · exact Or.inl hy
          · exact Or.inr h2
    · rw [if_neg hy]
      constructor
      · rintro (h | h)
        · rcases List.mem_append.mp h with h1 | h1
          · exact Or.inl h1
          · rcases List.mem_singleton.mp h1 with rfl
            exact Or.inr (List.mem_cons_self _ _)
        · exact Or.inr (List.mem_cons_of_mem _ h)
      · rintro (h | h)
        · exact Or.inl (List.mem_append_left _ h)
        · rcases List.mem_cons.mp h with rfl | h2
          · exact Or.inl (List.mem_append_right _ (List.mem_singleton_self _))
          · exact Or.inr h2

theorem mem_litsInOrder {cs : List (List ℤ)} {x : ℤ} :
    x ∈ litsInOrder cs ↔ ∃ c ∈ cs, x ∈ c := by
  have key : ∀ (css : List (List ℤ)) (acc : List ℤ),
      x ∈ css.foldl (fun acc c =>
          c.foldl (fun acc2 l => if l ∈ acc2 then acc2 else acc2 ++ [l]) acc) acc ↔
        x ∈ acc ∨ ∃ c ∈ css, x ∈ c := by
    intro css
    induction css with
    | nil => simp
    | cons c css ih =>
      intro acc
      rw [List.foldl_cons, ih, foldl_insert_mem]
      constructor
      · rintro ((h | h) | h)
        · exact Or.inl h
        · exact Or.inr ⟨c, List.mem_cons_self _ _, h⟩
        · rcases h with ⟨d, hd, hx⟩
          exact Or.inr ⟨d, List.mem_cons_of_mem _ hd, hx⟩
      · rintro (h | ⟨d, hd, hx⟩)
        · exact Or.inl (Or.inl h)
        · rcases List.mem_cons.mp hd with rfl | hd'
          · exact Or.inl (Or.inr hx)
          · exact Or.inr ⟨d, hd', hx⟩
  rw [litsInOrder, key]
  simp

theorem mem_findPureLiterals {cs : List (List ℤ)} {x : ℤ} :
    x ∈ findPureLiterals cs ↔
      (∃ c ∈ cs, x ∈ c) ∧ ¬ ∃ c ∈ cs, -x ∈ c := by
  rw [findPureLiterals, List.mem_filter]
  simp only [decide_eq_true_eq]
  rw [mem_litsInOrder]
  constructor
  · rintro ⟨h1, h2⟩
    exact ⟨h1, fun hx => h2 (mem_litsInOrder.mpr hx)⟩
  · rintro ⟨h1, h2⟩
    exact ⟨h1, fun hx => h2 (mem_litsInOrder.mp hx)⟩

/-- Characterization of a `simplify` conflict: some clause is not satisfied
and has all its literals falsified. -/
theorem simplify_eq_none_iff {cs : List (List ℤ)} {a : List ℤ} :
    simplify cs a = none ↔
      ∃ c ∈ cs, (¬ ∃ l ∈ c, l ∈ a) ∧ c.filter (fun l => decide (-l ∉ a)) = [] := by
  induction cs with
  | nil => simp [simplify]
  | cons c cs ih =>
    rw [simplify]
    by_cases hsat : ∃ l ∈ c, l ∈ a
    · rw [if_pos hsat, ih]
      constructor
      · rintro ⟨d, hd, h1, h2⟩
        exact ⟨d, List.mem_cons_of_mem _ hd, h1, h2⟩
      · rintro ⟨d, hd, h1, h2⟩
        rcases List.mem_cons.mp hd with rfl | hd'
        · exact absurd hsat h1
        · exact ⟨d, hd', h1, h2⟩
    · rw [if_neg hsat]
      by_cases hnil : c.filter (fun l => decide (-l ∉ a)) = []
      · rw [show (let c2 := c.filter (fun l => decide (-l ∉ a));
            if c2 = [] then none
            else (simplify cs a).map (fun r => c2 :: r)) =
            (none : Option (List (List ℤ))) from by rw [if_pos hnil]]
        exact iff_of_true rfl ⟨c, List.mem_cons_self _ _, hsat, hnil⟩
      · rw [show (let c2 := c.filter (fun l => decide (-l ∉ a));
            if c2 = [] then none
            else (simplify cs a).map (fun r => c2 :: r)) =
            (simplify cs a).map
              (fun r => c.filter (fun l => decide (-l ∉ a)) :: r) from by
            rw [if_neg hnil]]
        rw [Option.map_eq_none', ih]
        constructor
        · rintro ⟨d, hd, h1, h2⟩
          exact ⟨d, List.mem_cons_of_mem _ hd, h1, h2⟩
        · rintro ⟨d, hd, h1, h2⟩
          rcases List.mem_cons.mp hd with rfl | hd'
          · exact absurd h2 hnil
          · exact ⟨d, hd', h1, h2⟩

/-- Fate of an input clause under a successful `simplify`: it is either
satisfied by the assignment, or its filtered form survives in the output. -/
theorem simplify_fate {cs : List (List ℤ)} {a : List ℤ} {cs' : List (List ℤ)}
    (h : simplify cs a = some cs') {c : List ℤ} (hc : c ∈ cs) :
    (∃ l ∈ c, l ∈ a) ∨ c.filter (fun l => decide (-l ∉ a)) ∈ cs' := by
  by_cases hsat : ∃ l ∈ c, l ∈ a
  · exact Or.inl hsat
  · right
    by_cases hnil : c.filter (fun l => decide (-l ∉ a)) = []
    · exact absurd (simplify_eq_none_iff.mpr ⟨c, hc, hsat, hnil⟩) (by rw [h]; simp)
    · rw [simplify_eq_filterMap h]
      refine List.mem_filterMap.mpr ⟨c, hc, ?_⟩
      unfold clauseSimp
      rw [if_neg (not_or.mpr ⟨hsat, hnil⟩)]

/-- Literals surviving `simplify` are unassigned in both polarities. -/
theorem simplify_unassigned {cs : List (List ℤ)} {a : List ℤ}
    {cs' : List (List ℤ)} (h : simplify cs a = some cs') :
    ∀ c' ∈ cs', ∀ l ∈ c', l ∉ a ∧ -l ∉ a := by
  intro c' hc' l hl
  rcases simplify_mem h hc' with ⟨c, _, hnsat, rfl⟩
  have h1 := List.mem_filter.mp hl
  refine ⟨fun hla => hnsat ⟨l, h1.1, hla⟩, ?_⟩
  simpa using h1.2

theorem consistentA_append_lit {b : List ℤ} {x : ℤ} (hb : consistentA b)
    (hx0 : x ≠ 0) (hx : x ∉ b) (hnx : -x ∉ b) : consistentA (b ++ [x]) := by
  intro l hl
  rcases List.mem_append.mp hl with hlb | hlx
  · intro hneg
    rcases List.mem_append.mp hneg with h1 | h1
    · exact hb l hlb h1
    · rcases List.mem_singleton.mp h1 with h2
      have hlx : l = -x := by omega
      exact hnx (hlx ▸ hlb)
  · rcases List.mem_singleton.mp hlx with rfl
    intro hneg
    rcases List.mem_append.mp hneg with h1 | h1
    · exact hnx h1
    · rcases List.mem_singleton.mp h1 with h2
      exact hx0 (by omega)

theorem consistentA_append_list {b ps : List ℤ} (hb : consistentA b)
    (hps : ∀ p ∈ ps, p ∉ b ∧ -p ∉ b)
    (hpair : ∀ p ∈ ps, ∀ q ∈ ps, q ≠ -p) : consistentA (b ++ ps) := by
  intro l hl
  rcases List.mem_append.mp hl with hlb | hlp
  · intro hneg
    rcases List.mem_append.mp hneg with h1 | h1
    · exact hb l hlb h1
    · exact (hps (-l) h1).2 (by simpa using hlb)
  · intro hneg
    rcases List.mem_append.mp hneg with h1 | h1
    · exact (hps l hlp).2 h1
    · exact hpair l hlp (-l) h1 rfl

theorem findPureLiterals_pairwise (cs : List (List ℤ)) :
    ∀ p ∈ findPureLiterals cs, ∀ q ∈ findPureLiterals cs, q ≠ -p := by
  intro p hp q hq hqp
  rcases mem_findPureLiterals.mp hp with ⟨_, hnp⟩
  rcases mem_findPureLiterals.mp hq with ⟨hqocc, _⟩
  rw [hqp] at hqocc
  exact hnp hqocc

theorem chooseLiteral_char {cs : List (List ℤ)} {v : ℤ}
    (h : chooseLiteral cs = some v) : ∃ c ∈ cs, ∃ l ∈ c, v = |l| := by
  unfold chooseLiteral at h
  rcases Option.map_eq_some'.mp h with ⟨l, hfind, rfl⟩
  rcases List.exists_of_findSome?_eq_some hfind with ⟨c, hc, hhead⟩
  exact ⟨c, hc, l, List.mem_of_mem_head? hhead, rfl⟩

theorem chooseLiteral_none {cs : List (List ℤ)}
    (h : chooseLiteral cs = none) : ∀ c ∈ cs, c = [] := by
  intro c hc
  unfold chooseLiteral at h
  rw [Option.map_eq_none', List.findSome?_eq_none_iff] at h
  have := h c hc
  cases c with
  | nil => rfl
  | cons x xs => simp at this

/-- The unit literals list only grows along the unit-propagation loop. -/
theorem unitProp_grows :
    ∀ (n : Nat) (cs : List (List ℤ)) (us : List ℤ) {cs1 : List (List ℤ)}
      {us1 : List ℤ}, unitPropFuel n cs us = some (.ok cs1 us1) → us <+: us1 := by
  intro n
  induction n with
  | zero => intro cs us cs1 us1 h; cases h
  | succ n ih =>
    intro cs us cs1 us1 h
    cases hu : findUnitClause cs with
    | none =>
      simp only [unitPropFuel, hu, Option.some.injEq, UnitRes.ok.injEq] at h
      rw [h.2]
    | some u =>
      cases hs : simplify cs [u] with
      | none => simp [unitPropFuel, hu, hs] at h
      | some cs2 =>
        simp only [unitPropFuel, hu, hs] at h
        exact (List.prefix_append us [u]).trans (ih cs2 (us ++ [u]) h)

/-- Main invariant of the unit-propagation loop: starting from a consistent
total assignment `b ++ us` whose literals do not occur (in either polarity)
in the zero-free clause list, the accumulated assignment stays consistent
and the surviving clauses stay unassigned and zero-free. -/
theorem unitPropFuel_inv :
    ∀ (n : Nat) (cs : List (List ℤ)) (us : List ℤ) {r : UnitRes} (b : List ℤ),
      unitPropFuel n cs us = some r →
      consistentA (b ++ us) →
      (∀ C ∈ cs, ∀ l ∈ C, l ∉ b ++ us ∧ -l ∉ b ++ us) →
      (∀ C ∈ cs, (0:ℤ) ∉ C) →
      (∀ us1, r = .conflict us1 → consistentA (b ++ us1)) ∧
      (∀ cs1 us1, r = .ok cs1 us1 →
        consistentA (b ++ us1) ∧
        (∀ C ∈ cs1, ∀ l ∈ C, l ∉ b ++ us1 ∧ -l ∉ b ++ us1) ∧
        (∀ C ∈ cs1, (0:ℤ) ∉ C)) := by
  intro n
  induction n with
  | zero => intro cs us r b h; cases h
  | succ n ih =>
    intro cs us r b h hcons hun h0
    cases hu : findUnitClause cs with
    | none =>
      simp only [unitPropFuel, hu, Option.some.injEq] at h
      subst h
      constructor
      · intro us1 h1
        cases h1
      · intro cs1 us1 h1
        cases h1
        exact ⟨hcons, hun, h0⟩
    | some u =>
      have humem : [u] ∈ cs := findUnitClause_mem hu
      have hu0 : u ≠ 0 := fun h0u => h0 [u] humem (h0u ▸ List.mem_singleton_self u)
      have huun := hun [u] humem u (List.mem_singleton_self u)
      have hcons2 : consistentA (b ++ (us ++ [u])) := by
        rw [← List.append_assoc]
        exact consistentA_append_lit hcons hu0 huun.1 huun.2
      cases hs : simplify cs [u] with
      | none =>
        simp only [unitPropFuel, hu, hs, Option.some.injEq] at h
        subst h
        constructor
        · intro us1 h1
          cases h1
          exact hcons2
        · intro cs1 us1 h1
          cases h1
      | some cs2 =>
        simp only [unitPropFuel, hu, hs] at h
        have hun2 : ∀ C ∈ cs2, ∀ l ∈ C, l ∉ b ++ (us ++ [u]) ∧ -l ∉ b ++ (us ++ [u]) := by
          intro C hC l hl
          rcases simplify_sub hs C hC with ⟨C', hC', hsubl⟩
          have hold := hun C' hC' l (hsubl l hl)
          have hnew := simplify_unassigned hs C hC l hl
          rw [← List.append_assoc]
          constructor
          · intro hmem
            rcases List.mem_append.mp hmem with h1 | h1
            · exact hold.1 h1
            · exact hnew.1 h1
          · intro hmem
            rcases List.mem_append.mp hmem with h1 | h1
            · exact hold.2 h1
            · exact hnew.2 h1
        have h02 : ∀ C ∈ cs2, (0:ℤ) ∉ C := by
          intro C hC hzero
          rcases simplify_sub hs C hC with ⟨C', hC', hsubl⟩
          exact h0 C' hC' (hsubl 0 hzero)
        exact ih cs2 (us ++ [u]) b h hcons2 hun2 h02

/-! ### Clause coverage (witness validity) -/

/-- If the output clauses of a successful `simplify` are covered by `A` and
the assignment is contained in `A`, the input clauses are covered by `A`. -/
theorem simplify_cover {cs : List (List ℤ)} {a : List ℤ} {cs' : List (List ℤ)}
    (h : simplify cs a = some cs') {A : List ℤ}
    (ha : ∀ x ∈ a, x ∈ A) (hcs' : ∀ C' ∈ cs', ∃ l ∈ C', l ∈ A) :
    ∀ C ∈ cs, ∃ l ∈ C, l ∈ A := by
  intro C hC
  rcases simplify_fate h hC with ⟨l, hl, hla⟩ | hf
  · exact ⟨l, hl, ha l hla⟩
  · rcases hcs' _ hf with ⟨l, hl, hla⟩
    exact ⟨l, (List.mem_filter.mp hl).1, hla⟩

theorem unitProp_cover :
    ∀ (n : Nat) (cs : List (List ℤ)) (us : List ℤ) {cs1 : List (List ℤ)}
      {us1 : List ℤ}, unitPropFuel n cs us = some (.ok cs1 us1) →
      ∀ A : List ℤ, (∀ x ∈ us1, x ∈ A) → (∀ C' ∈ cs1, ∃ l ∈ C', l ∈ A) →
      ∀ C ∈ cs, ∃ l ∈ C, l ∈ A := by
  intro n
  induction n with
  | zero => intro cs us cs1 us1 h; cases h
  | succ n ih =>
    intro cs us cs1 us1 h A hA hcover
    cases hu : findUnitClause cs with
    | none =>
      simp only [unitPropFuel, hu, Option.some.injEq, UnitRes.ok.injEq] at h
      rw [h.1]
      exact hcover
    | some u =>
      cases hs : simplify cs [u] with
      | none => simp [unitPropFuel, hu, hs] at h
      | some cs2 =>
        simp only [unitPropFuel, hu, hs] at h
        have hu1 : u ∈ us1 :=
          (unitProp_grows n cs2 (us ++ [u]) h).subset
            (List.mem_append_right us (List.mem_singleton_self u))
        refine simplify_cover hs ?_ (ih cs2 (us ++ [u]) h A hA hcover)
        intro x hx
        rcases List.mem_singleton.mp hx with rfl
        exact hA x hu1

/-- Coverage transported backwards through the three simplification stages
of one `dpll` call. -/
theorem stage_cover {cs : List (List ℤ)} {a : List ℤ} {cs0 cs1 : List (List ℤ)}
    {us : List ℤ} {cs2 : List (List ℤ)} {A : List ℤ}
    (hs : simplify cs a = some cs0)
    (hur : unitPropFuel (cs0.length + 1) cs0 [] = some (.ok cs1 us))
    (hs2 : simplify cs1 (findPureLiterals cs1) = some cs2)
    (ha : ∀ x ∈ a, x ∈ A) (hus : ∀ x ∈ us, x ∈ A)
    (hps : ∀ x ∈ findPureLiterals cs1, x ∈ A)
    (hcover : ∀ C ∈ cs2, ∃ l ∈ C, l ∈ A) :
    ∀ C ∈ cs, ∃ l ∈ C, l ∈ A :=
  simplify_cover hs ha
    (unitProp_cover _ _ _ hur A hus (simplify_cover hs2 hps hcover))

/-! ### Stage-by-stage consistency of one `dpll` call -/

theorem zeroFree_simplify {cs : List (List ℤ)} {a : List ℤ}
    {cs' : List (List ℤ)} (hs : simplify cs a = some cs')
    (h0 : ∀ C ∈ cs, (0:ℤ) ∉ C) : ∀ C ∈ cs', (0:ℤ) ∉ C := by
  intro C hC hz
  rcases simplify_sub hs C hC with ⟨C', hC', hsub⟩
  exact h0 C' hC' (hsub 0 hz)

theorem pureStage_consistent {cs1 : List (List ℤ)} {b1 : List ℤ}
    (hcons : consistentA b1)
    (hun : ∀ C ∈ cs1, ∀ l ∈ C, l ∉ b1 ∧ -l ∉ b1) :
    consistentA (b1 ++ findPureLiterals cs1) := by
  apply consistentA_append_list hcons
  · intro p hp
    rcases (mem_findPureLiterals.mp hp).1 with ⟨c, hc, hpc⟩
    exact hun c hc p hpc
  · exact findPureLiterals_pairwise cs1

theorem pureStage_unassigned {cs1 cs2 : List (List ℤ)} {b1 : List ℤ}
    (hun : ∀ C ∈ cs1, ∀ l ∈ C, l ∉ b1 ∧ -l ∉ b1)
    (hs2 : simplify cs1 (findPureLiterals cs1) = some cs2) :
    ∀ C ∈ cs2, ∀ l ∈ C,
      l ∉ b1 ++ findPureLiterals cs1 ∧ -l ∉ b1 ++ findPureLiterals cs1 := by
  intro C hC l hl
  rcases simplify_sub hs2 C hC with ⟨C', hC', hsubl⟩
  have hold := hun C' hC' l (hsubl l hl)
  have hnew := simplify_unassigned hs2 C hC l hl
  constructor
  · intro hm
    rcases List.mem_append.mp hm with h1 | h1
    · exact hold.1 h1
    · exact hnew.1 h1
  · intro hm
    rcases List.mem_append.mp hm with h1 | h1
    · exact hold.2 h1
    · exact hnew.2 h1

theorem branch_consistent {cs2 : List (List ℤ)} {b2 : List ℤ} {v w : ℤ}
    (hcons : consistentA b2)
    (hun : ∀ C ∈ cs2, ∀ l ∈ C, l ∉ b2 ∧ -l ∉ b2)
    (h0 : ∀ C ∈ cs2, (0:ℤ) ∉ C)
    (hch : chooseLiteral cs2 = some v) (hw : w = v ∨ w = -v) :
    consistentA (b2 ++ [w]) := by
  rcases chooseLiteral_char hch with ⟨c, hc, l0, hl0, hv⟩
  have hl0un := hun c hc l0 hl0
  have hl00 : l0 ≠ 0 := fun hz => h0 c hc (hz ▸ hl0)
  have hwl : w = l0 ∨ w = -l0 := by
    rcases abs_choice l0 with h | h <;> rcases hw with rfl | rfl <;> omega
  have hw0 : w ≠ 0 := by rcases hwl with rfl | rfl <;> omega
  have hwin : w ∉ b2 ∧ -w ∉ b2 := by
    rcases hwl with rfl | rfl
    · exact hl0un
    · exact ⟨fun hm => hl0un.2 hm, fun hm => hl0un.1 (by simpa using hm)⟩
  exact consistentA_append_lit hcons hw0 hwin.1 hwin.2

/-- Combined invariant after the unit and pure-literal stages of one `dpll`
call starting from a consistent assignment over a zero-free clause list. -/
theorem stages_inv {cs : List (List ℤ)} {a : List ℤ} {cs0 cs1 : List (List ℤ)}
    {us : List ℤ} (hcons : consistentA a) (h0 : ∀ C ∈ cs, (0:ℤ) ∉ C)
    (hs : simplify cs a = some cs0)
    (hur : unitPropFuel (cs0.length + 1) cs0 [] = some (.ok cs1 us)) :
    consistentA (a ++ us) ∧
    (∀ C ∈ cs1, ∀ l ∈ C, l ∉ a ++ us ∧ -l ∉ a ++ us) ∧
    (∀ C ∈ cs1, (0:ℤ) ∉ C) := by
  have hun0 := simplify_unassigned hs
  have h00 := zeroFree_simplify hs h0
  have hconsnil : consistentA (a ++ []) := by simpa using hcons
  have hun0n : ∀ C ∈ cs0, ∀ l ∈ C, l ∉ a ++ [] ∧ -l ∉ a ++ [] := by
    simpa using hun0
  exact (unitPropFuel_inv _ cs0 [] a hur hconsnil hun0n h00).2 cs1 us rfl

/-- Consistency of the full assignment accumulated by one `dpll` call at the
moment it recurses into a branch. -/
theorem stagesBranch_consistent {cs : List (List ℤ)} {a : List ℤ}
    {cs0 cs1 : List (List ℤ)} {us : List ℤ} {cs2 : List (List ℤ)} {v w : ℤ}
    (hcons : consistentA a) (h0 : ∀ C ∈ cs, (0:ℤ) ∉ C)
    (hs : simplify cs a = some cs0)
    (hur : unitPropFuel (cs0.length + 1) cs0 [] = some (.ok cs1 us))
    (hs2 : simplify cs1 (findPureLiterals cs1) = some cs2)
    (hch : chooseLiteral cs2 = some v) (hw : w = v ∨ w = -v) :
    consistentA (a ++ us ++ findPureLiterals cs1 ++ [w]) ∧
    (∀ C ∈ cs2, (0:ℤ) ∉ C) := by
  rcases stages_inv hcons h0 hs hur with ⟨hc1, hu1, h01⟩
  have hc2 := pureStage_consistent hc1 hu1
  have hu2 := pureStage_unassigned hu1 hs2
  have h02 := zeroFree_simplify hs2 h01
  have hfin := branch_consistent hc2 hu2 h02 hch hw
  refine ⟨?_, h02⟩
  have heq : (a ++ us ++ findPureLiterals cs1) ++ [w] =
      a ++ us ++ findPureLiterals cs1 ++ [w] := by simp
  rw [← heq]
  exact hfin

/-- A `dpll` recursion step preserves consistency of the assignment and
zero-freeness of the clause list. -/
theorem dpllStep_inv {s t : List (List ℤ) × List ℤ} (hstep : DpllStep s t)
    (hcons : consistentA s.2) (h0 : ∀ C ∈ s.1, (0:ℤ) ∉ C) :
    consistentA t.2 ∧ ∀ C ∈ t.1, (0:ℤ) ∉ C := by
  cases hstep with
  | branch hs hne hur hs2 hch hw =>
    exact stagesBranch_consistent hcons h0 hs hur hs2 hch hw

/-- Consistency is preserved along every chain of `dpll` recursion steps. -/
theorem dpllReach_inv {s t : List (List ℤ) × List ℤ}
    (h : Relation.ReflTransGen DpllStep s t)
    (hcons : consistentA s.2) (h0 : ∀ C ∈ s.1, (0:ℤ) ∉ C) :
    consistentA t.2 ∧ ∀ C ∈ t.1, (0:ℤ) ∉ C := by
  induction h with
  | refl => exact ⟨hcons, h0⟩
  | tail _ hstep ih => exact dpllStep_inv hstep ih.1 ih.2

/-- The mutated caller list stays consistent (`dpll.py` appends only fresh,
mutually non-clashing literals to the caller's `current_assignment`). -/
theorem dpllCallerList_consistent {cs : List (List ℤ)} {a : List ℤ}
    (hcons : consistentA a) (h0 : ∀ C ∈ cs, (0:ℤ) ∉ C) :
    consistentA (dpllCallerList cs a) := by
  cases hs : simplify cs a with
  | none => simp only [dpllCallerList, hs]; exact hcons
  | some cs0 =>
    cases cs0 with
    | nil => simp only [dpllCallerList, hs]; exact hcons
    | cons chd ctl =>
      rcases Option.isSome_iff_exists.mp
          (unitPropFuel_isSome ((chd :: ctl).length + 1) (chd :: ctl) []
            (Nat.lt_succ_self _)) with ⟨r, hur⟩
      have hun0 := simplify_unassigned hs
      have h00 := zeroFree_simplify hs h0
      have hconsnil : consistentA (a ++ []) := by simpa using hcons
      have hun0n : ∀ C ∈ chd :: ctl, ∀ l ∈ C, l ∉ a ++ [] ∧ -l ∉ a ++ [] := by
        simpa using hun0
      have hinv := unitPropFuel_inv _ (chd :: ctl) [] a hur hconsnil hun0n h00
      cases r with
      | conflict us =>
        simp only [dpllCallerList, hs, hur]
        exact hinv.1 us rfl
      | ok cs1 us =>
        simp only [dpllCallerList, hs, hur]
        rcases hinv.2 cs1 us rfl with ⟨hc1, hu1, _⟩
        have := pureStage_consistent hc1 hu1
        have heq : (a ++ us) ++ findPureLiterals cs1 =
            a ++ us ++ findPureLiterals cs1 := by simp
        rw [← heq]
        exact this

/-- `dpll` never returns an assignment together with the `False` verdict
(mirrors the Python `return False, None`). -/
theorem dpllFuel_false_none :
    ∀ (n : Nat) (cs : List (List ℤ)) (a : List ℤ) {r : Option (List ℤ)},
      dpllFuel n cs a = some (false, r) → r = none := by
  intro n
  induction n with
  | zero => intro cs a r h; cases h
  | succ n ih =>
    intro cs a r h
    cases hs : simplify cs a with
    | none =>
      simp only [dpllFuel, hs, Option.some.injEq, Prod.mk.injEq] at h
      exact h.2.symm
    | some cs0 =>
      cases cs0 with
      | nil =>
        simp only [dpllFuel, hs, Option.some.injEq, Prod.mk.injEq] at h
        exact absurd h.1.symm (by simp)
      | cons chd ctl =>
        cases hur : unitPropFuel ((chd :: ctl).length + 1) (chd :: ctl) [] with
        | none =>
          simp only [dpllFuel, hs, hur] at h
          exact Option.noConfusion h
        | some ur =>
          cases ur with
          | conflict us =>
            simp only [dpllFuel, hs, hur, Option.some.injEq, Prod.mk.injEq] at h
            exact h.2.symm
          | ok cs1 us =>
            cases hs2 : simplify cs1 (findPureLiterals cs1) with
            | none =>
              simp only [dpllFuel, hs, hur, hs2, Option.some.injEq,
                Prod.mk.injEq] at h
              exact h.2.symm
            | some cs2 =>
              cases hch : chooseLiteral cs2 with
              | none =>
                simp only [dpllFuel, hs, hur, hs2, hch, Option.some.injEq,
                  Prod.mk.injEq] at h
                exact absurd h.1.symm (by simp)
              | some v =>
                cases h1 : dpllFuel n cs2
                    (a ++ us ++ findPureLiterals cs1 ++ [v]) with
                | none =>
                  simp only [dpllFuel, hs, hur, hs2, hch, h1] at h
                  exact Option.noConfusion h
                | some br1 =>
                  obtain ⟨b1, r1⟩ := br1
                  cases b1 with
                  | true =>
                    simp only [dpllFuel, hs, hur, hs2, hch, h1,
                      Option.some.injEq, Prod.mk.injEq] at h
                    exact absurd h.1.symm (by simp)
                  | false =>
                    cases h2 : dpllFuel n cs2
                        (a ++ us ++ findPureLiterals cs1 ++ [-v]) with
                    | none =>
                      simp only [dpllFuel, hs, hur, hs2, hch, h1, h2] at h
                      exact Option.noConfusion h
                    | some br2 =>
                      obtain ⟨b2, r2⟩ := br2
                      cases b2 with
                      | true =>
                        simp only [dpllFuel, hs, hur, hs2, hch, h1, h2,
                          Option.some.injEq, Prod.mk.injEq] at h
                        exact absurd h.1.symm (by simp)
                      | false =>
                        simp only [dpllFuel, hs, hur, hs2, hch, h1, h2,
                          Option.some.injEq, Prod.mk.injEq] at h
                        exact h.2.symm

/-- Main properties of a successful `dpll` run: the returned witness
extends the initial assignment, covers every input clause with one of its
own literals, and is consistent whenever the initial assignment is
consistent and the clauses are zero-free. -/
theorem dpllFuel_true_result :
    ∀ (n : Nat) (cs : List (List ℤ)) (a : List ℤ) {r : Option (List ℤ)},
      dpllFuel n cs a = some (true, r) →
      ∃ A, r = some A ∧ (∀ x ∈ a, x ∈ A) ∧
        (∀ C ∈ cs, ∃ l ∈ C, l ∈ A) ∧
        (consistentA a → (∀ C ∈ cs, (0:ℤ) ∉ C) → consistentA A) := by
  intro n
  induction n with
  | zero => intro cs a r h; cases h
  | succ n ih =>
    intro cs a r h
    cases hs : simplify cs a with
    | none =>
      simp only [dpllFuel, hs, Option.some.injEq, Prod.mk.injEq] at h
      exact absurd h.1 (by simp)
    | some cs0 =>
      cases cs0 with
      | nil =>
        simp only [dpllFuel, hs, Option.some.injEq, Prod.mk.injEq] at h
        refine ⟨a, h.2.symm, fun x hx => hx, ?_, fun hcons _ => hcons⟩
        intro C hC
        rcases simplify_fate hs hC with hsat | hf
        · exact hsat
        · cases hf
      | cons chd ctl =>
        cases hur : unitPropFuel ((chd :: ctl).length + 1) (chd :: ctl) [] with
        | none =>
          simp only [dpllFuel, hs, hur] at h
          exact Option.noConfusion h
        | some ur =>
          cases ur with
          | conflict us =>
            simp only [dpllFuel, hs, hur, Option.some.injEq, Prod.mk.injEq] at h
            exact absurd h.1 (by simp)
          | ok cs1 us =>
            cases hs2 : simplify cs1 (findPureLiterals cs1) with
            | none =>
              simp only [dpllFuel, hs, hur, hs2, Option.some.injEq,
                Prod.mk.injEq] at h
              exact absurd h.1 (by simp)
            | some cs2 =>
              cases hch : chooseLiteral cs2 with
              | none =>
                simp only [dpllFuel, hs, hur, hs2, hch, Option.some.injEq,
                  Prod.mk.injEq] at h
                have hcs2nil : cs2 = [] := by
                  cases hcs2 : cs2 with
                  | nil => rfl
                  | cons c t =>
                    rw [hcs2] at hch hs2
                    exact absurd (chooseLiteral_none hch c (List.mem_cons_self _ _))
                      (simplify_ne_nil hs2 (List.mem_cons_self _ _))
                refine ⟨a ++ us ++ findPureLiterals cs1, h.2.symm, ?_, ?_, ?_⟩
                · intro x hx
                  exact List.mem_append_left _ (List.mem_append_left _ hx)
                · refine stage_cover hs hur hs2 ?_ ?_ ?_ ?_
                  · intro x hx
                    exact List.mem_append_left _ (List.mem_append_left _ hx)
                  · intro x hx
                    exact List.mem_append_left _ (List.mem_append_right _ hx)
                  · intro x hx
                    exact List.mem_append_right _ hx
                  · rw [hcs2nil]; intro C hC; cases hC
                · intro hcons h0
                  rcases stages_inv hcons h0 hs hur with ⟨hc1, hu1, _⟩
                  exact pureStage_consistent hc1 hu1
              | some v =>
                cases h1 : dpllFuel n cs2
                    (a ++ us ++ findPureLiterals cs1 ++ [v]) with
                | none =>
                  simp only [dpllFuel, hs, hur, hs2, hch, h1] at h
                  exact Option.noConfusion h
                | some br1 =>
                  obtain ⟨b1, r1⟩ := br1
                  cases b1 with
                  | true =>
                    simp only [dpllFuel, hs, hur, hs2, hch, h1,
                      Option.some.injEq, Prod.mk.injEq] at h
                    rcases ih cs2 _ h1 with ⟨A, hA, haA, hcov2, hconsA⟩
                    refine ⟨A, by rw [← h.2]; exact hA, ?_, ?_, ?_⟩
                    · intro x hx
                      exact haA x (List.mem_append_left _ (List.mem_append_left _
                        (List.mem_append_left _ hx)))
                    · refine stage_cover hs hur hs2 ?_ ?_ ?_ hcov2
                      · intro x hx
                        exact haA x (List.mem_append_left _ (List.mem_append_left _
                          (List.mem_append_left _ hx)))
                      · intro x hx
                        exact haA x (List.mem_append_left _ (List.mem_append_left _
                          (List.mem_append_right _ hx)))
                      · intro x hx
                        exact haA x (List.mem_append_left _
                          (List.mem_append_right _ hx))
                    · intro hcons h0
                      rcases stagesBranch_consistent hcons h0 hs hur hs2 hch
                        (Or.inl rfl) with ⟨hcb, h02⟩
                      exact hconsA hcb h02
                  | false =>
                    cases h2 : dpllFuel n cs2
                        (a ++ us ++ findPureLiterals cs1 ++ [-v]) with
                    | none =>
                      simp only [dpllFuel, hs, hur, hs2, hch, h1, h2] at h
                      exact Option.noConfusion h
                    | some br2 =>
                      obtain ⟨b2, r2⟩ := br2
                      cases b2 with
                      | true =>
                        simp only [dpllFuel, hs, hur, hs2, hch, h1, h2,
                          Option.some.injEq, Prod.mk.injEq] at h
                        rcases ih cs2 _ h2 with ⟨A, hA, haA, hcov2, hconsA⟩
                        refine ⟨A, by rw [← h.2]; exact hA, ?_, ?_, ?_⟩
                        · intro x hx
                          exact haA x (List.mem_append_left _ (List.mem_append_left _
                            (List.mem_append_left _ hx)))
                        · refine stage_cover hs hur hs2 ?_ ?_ ?_ hcov2
                          · intro x hx
                            exact haA x (List.mem_append_left _
                              (List.mem_append_left _ (List.mem_append_left _ hx)))
                          · intro x hx
                            exact haA x (List.mem_append_left _
                              (List.mem_append_left _ (List.mem_append_right _ hx)))
                          · intro x hx
                            exact haA x (List.mem_append_left _
                              (List.mem_append_right _ hx))
                        · intro hcons h0
                          rcases stagesBranch_consistent hcons h0 hs hur hs2 hch
                            (Or.inr rfl) with ⟨hcb, h02⟩
                          exact hconsA hcb h02
                      | false =>
                        simp only [dpllFuel, hs, hur, hs2, hch, h1, h2,
                          Option.some.injEq, Prod.mk.injEq] at h
                        exact absurd h.1 (by simp)

/-! ### Claim C10 support -/

/-- Pure-literal simplification cannot conflict on a list of nonempty
clauses: no literal of any clause has its negation among the pure
literals. -/
theorem pure_simplify_no_conflict (cs : List (List ℤ))
    (hne : ∀ C ∈ cs, C ≠ []) :
    simplify cs (findPureLiterals cs) ≠ none := by
  intro h
  rcases simplify_eq_none_iff.mp h with ⟨c, hc, _, hnil⟩
  cases hcc : c with
  | nil => exact hne c hc hcc
  | cons l0 ct =>
    rw [hcc] at hnil hc
    have hl0 : -l0 ∈ findPureLiterals cs := by
      by_contra hcon
      have hmem : l0 ∈ (l0 :: ct).filter
          (fun l => decide (-l ∉ findPureLiterals cs)) :=
        List.mem_filter.mpr ⟨List.mem_cons_self _ _, by simpa using hcon⟩
      rw [hnil] at hmem
      cases hmem
    rcases mem_findPureLiterals.mp hl0 with ⟨_, hno⟩
    refine hno ⟨l0 :: ct, hc, ?_⟩
    simp

/-! ## Claim theorems (DPLL-local claims) -/

/-- C4: whenever `dpll`, called on a Formula with the empty assignment,
returns SAT with an assignment `A`, every clause of the original input
formula contains at least one literal that is an element of `A`. -/
theorem c4_dpll_witness_validity (F : List (List ℤ)) (A : List ℤ)
    (h : dpll F [] = (true, some A)) : ∀ C ∈ F, ∃ l ∈ C, l ∈ A := by
  have hf : dpllFuel (dpllMeasure F [] + 1) F [] = some (dpll F []) :=
    dpllFuel_eq_dpll (Nat.lt_succ_self _)
  rw [h] at hf
  rcases dpllFuel_true_result _ F [] hf with ⟨A2, hA2, _, hcov, _⟩
  cases Option.some.inj hA2
  exact hcov

/-- Witness for C4 at scenario 4 of the spec. -/
theorem c4_witness :
    ∃ l ∈ ([-1, 2] : List ℤ), l ∈ ([1, 2] : List ℤ) :=
  c4_dpll_witness_validity [[1, 2], [-1, 2], [1, -2]] [1, 2] (by decide)
    [-1, 2] (by decide)

/-- C5: starting from a consistent assignment over a Formula (whose
literals are nonzero, per the data model), every assignment constructed
during the `dpll` run stays consistent — the assignment of every reachable
recursive call, the caller's in-place extended list at that call, and any
returned witness never contain a variable in both polarities. -/
theorem c5_assignment_consistency (cs : List (List ℤ)) (a : List ℤ)
    (t : List (List ℤ) × List ℤ)
    (hcons : consistentA a) (h0 : ∀ C ∈ cs, (0:ℤ) ∉ C)
    (hreach : Relation.ReflTransGen DpllStep (cs, a) t) :
    consistentA t.2 ∧ consistentA (dpllCallerList t.1 t.2) ∧
      ∀ A, (dpll t.1 t.2).2 = some A → consistentA A := by
  rcases dpllReach_inv hreach hcons h0 with ⟨hct, h0t⟩
  refine ⟨hct, dpllCallerList_consistent hct h0t, ?_⟩
  intro A hA
  have hf : dpllFuel (dpllMeasure t.1 t.2 + 1) t.1 t.2 = some (dpll t.1 t.2) :=
    dpllFuel_eq_dpll (Nat.lt_succ_self _)
  rcases hp : dpll t.1 t.2 with ⟨b, r⟩
  rw [hp] at hf hA
  cases b with
  | false =>
    have := dpllFuel_false_none _ t.1 t.2 hf
    rw [this] at hA
    cases hA
  | true =>
    rcases dpllFuel_true_result _ t.1 t.2 hf with ⟨A2, hA2, _, _, hconsA⟩
    rw [hA2] at hA
    cases Option.some.inj hA
    exact hconsA hct h0t

/-- Witness for C5 at the trivial reachable state of `dpll [[1]] []`. -/
theorem c5_witness :
    consistentA ([] : List ℤ) ∧
      consistentA (dpllCallerList [[1]] []) ∧
      ∀ A, (dpll [[1]] []).2 = some A → consistentA A :=
  c5_assignment_consistency [[1]] [] ([[1]], [])
    (by intro l hl; cases hl) (by decide) Relation.ReflTransGen.refl

/-- C9 counterexample: `dpll`'s unit propagation appends to the caller's
`current_assignment` list in place (`dpll.py` line 72); after
`dpll([[1]], [])` the caller's list holds `[1]`, not `[]`. -/
theorem c9_counterexample :
    dpllCallerList [[1]] [] = [1] ∧ dpllCallerList [[1]] [] ≠ [] := by
  constructor
  · rfl
  · intro h
    cases h

/-- C9 (amended): `dp` and `resolution` are pure functions of their inputs;
`dpll` never mutates the clause lists, but it extends the caller's
assignment list in place — after the call the caller's list is the original
assignment extended by the literals appended by unit propagation and
pure-literal elimination at the top level. -/
theorem c9_caller_list_extends (cs : List (List ℤ)) (a : List ℤ) :
    a <+: dpllCallerList cs a := by
  cases hs : simplify cs a with
  | none => simp only [dpllCallerList, hs]; exact List.prefix_rfl
  | some cs0 =>
    cases cs0 with
    | nil => simp only [dpllCallerList, hs]; exact List.prefix_rfl
    | cons chd ctl =>
      cases hur : unitPropFuel ((chd :: ctl).length + 1) (chd :: ctl) [] with
      | none => simp only [dpllCallerList, hs, hur]; exact List.prefix_rfl
      | some r =>
        cases r with
        | conflict us =>
          simp only [dpllCallerList, hs, hur]
          exact List.prefix_append a us
        | ok cs1 us =>
          simp only [dpllCallerList, hs, hur]
          exact (List.prefix_append a us).trans
            (List.prefix_append (a ++ us) (findPureLiterals cs1))

/-- C10 counterexample: on a clause list already containing the empty
clause, `simplify(clauses, find_pure_literals(clauses))` does return the
conflict result `None`. -/
theorem c10_counterexample :
    simplify [[]] (findPureLiterals [[]]) = none := rfl

/-- C10 (amended): for every clause list whose clauses are all nonempty —
which holds at the pure-literal call site inside `dpll`, whose clause list
is a successful `simplify` output — simplifying with the pure literals
never returns the conflict result `None`: a pure literal's negation occurs
in no clause, so pure-literal simplification only drops satisfied clauses
and never empties one. -/
theorem c10_pure_conflict_unreachable (cs : List (List ℤ))
    (hne : ∀ C ∈ cs, C ≠ []) :
    simplify cs (findPureLiterals cs) ≠ none :=
  pure_simplify_no_conflict cs hne

/-- Witness for C10 on a concrete nonempty clause list. -/
theorem c10_witness : simplify [[1]] (findPureLiterals [[1]]) ≠ none :=
  c10_pure_conflict_unreachable [[1]] (by decide)

/-! ### Claim C8 support: the parser -/

theorem mem_dropLast_or_getLast {α : Type} {x : α} :
    ∀ {l : List α}, x ∈ l → x ∈ l.dropLast ∨ l.getLast? = some x := by
  intro l
  induction l with
  | nil => intro h; cases h
  | cons a l ih =>
    intro h
    cases l with
    | nil =>
      rcases List.mem_cons.mp h with rfl | h2
      · right; rfl
      · cases h2
    | cons b t =>
      rcases List.mem_cons.mp h with rfl | h2
      · left
        rw [List.dropLast_cons₂]
        exact List.mem_cons_self _ _
      · rcases ih h2 with h3 | h3
        · left
          rw [List.dropLast_cons₂]
          exact List.mem_cons_of_mem _ h3
        · right
          rw [List.getLast?_cons_cons]
          exact h3

theorem mapM_dropLast_mem {α β : Type} (f : α → Option β) (y : β) :
    ∀ (toks : List α) (lits : List β), toks.mapM f = some lits →
      y ∈ lits.dropLast → ∃ tok ∈ toks.dropLast, f tok = some y := by
  intro toks
  induction toks with
  | nil =>
    intro lits h hy
    rw [List.mapM_nil] at h
    cases Option.some.inj h
    exact absurd hy (by simp)
  | cons t ts ih =>
    intro lits h hy
    rw [List.mapM_cons] at h
    rcases Option.bind_eq_some.mp h with ⟨b, hb, h2⟩
    rcases Option.bind_eq_some.mp h2 with ⟨bs, hbs, h3⟩
    cases Option.some.inj h3
    cases hbs2 : bs with
    | nil =>
      rw [hbs2] at hy
      exact absurd hy (by simp)
    | cons b2 bs2 =>
      rw [hbs2] at hy
      have hts : ts ≠ [] := by
        intro hnil
        rw [hnil, List.mapM_nil] at hbs
        rw [hbs2] at hbs
        cases Option.some.inj hbs
      rcases hts2 : ts with _ | ⟨u, us⟩
      · exact absurd hts2 hts
      · rw [List.dropLast_cons₂] at hy
        rcases List.mem_cons.mp hy with rfl | hy2
        · refine ⟨t, ?_, hb⟩
          rw [List.dropLast_cons₂]
          exact List.mem_cons_self _ _
        · rcases ih bs hbs (by rw [hbs2]; exact hy2) with ⟨tok, htok, hftok⟩
          refine ⟨tok, ?_, hftok⟩
          rw [List.dropLast_cons₂]
          rw [hts2] at htok
          exact List.mem_cons_of_mem _ htok

/-- Characterization of a successfully parsed line. -/
theorem parseLine_some {line : List Char} {C : List ℤ}
    (hp : parseLine line = some C) :
    ∃ lits, (pyWords (pyStrip line)).mapM pyInt? = some lits ∧ C ≠ [] ∧
      ((lits.getLast? = some 0 ∧ C = lits.dropLast) ∨
       (¬ (lits ≠ [] ∧ lits.getLast? = some 0) ∧ C = lits)) := by
  by_cases hskip : (pyStrip line).head? = some 'c' ∨ (pyStrip line).head? = some 'p'
      ∨ (pyStrip line).head? = some '%' ∨ pyStrip line = []
  · simp only [parseLine, if_pos hskip] at hp
    cases hp
  · cases hm : (pyWords (pyStrip line)).mapM pyInt? with
    | none =>
      simp only [parseLine, if_neg hskip, hm] at hp
      exact Option.noConfusion hp
    | some lits =>
      simp only [parseLine, if_neg hskip, hm] at hp
      refine ⟨lits, rfl, ?_⟩
      by_cases hlast : lits ≠ [] ∧ lits.getLast? = some 0
      · rw [if_pos hlast] at hp
        by_cases hnil : lits.dropLast = []
        · rw [if_pos hnil] at hp; cases hp
        · rw [if_neg hnil] at hp
          cases Option.some.inj hp
          exact ⟨hnil, Or.inl ⟨hlast.2, rfl⟩⟩
      · rw [if_neg hlast] at hp
        by_cases hnil : lits = []
        · rw [if_pos hnil] at hp; cases hp
        · rw [if_neg hnil] at hp
          cases Option.some.inj hp
          exact ⟨hnil, Or.inr ⟨hlast, rfl⟩⟩

/-! ## Claim theorems (parser) -/

/-- C8 counterexample: a `0` in the middle of a data line is stored as a
literal — `parse_cnf_file` only strips a single trailing `0`. -/
theorem c8_counterexample :
    parseCnfLines [['1', ' ', '0', ' ', '2']] = [[1, 0, 2]] ∧
      ∃ C ∈ parseCnfLines [['1', ' ', '0', ' ', '2']], (0:ℤ) ∈ C :=
  ⟨by decide, by decide⟩

/-- C8 (amended): for every ASCII input text whose data lines carry a token
parsing to `0` (if at all) only in final position, the parser output
contains no clause with the literal `0`: comment/header lines and lines
with non-integer tokens contribute nothing (the second hypothesis is
vacuous for them, since it only constrains lines all of whose tokens parse
as integers), the trailing `0` is stripped rather than stored, and a line
with no remaining literal is dropped.  The ASCII hypothesis delimits the
scope on which the `List Char` model of `strip`/`split`/`int` coincides
with CPython's Unicode-aware versions. -/
theorem c8_parser_no_zero (ls : List (List Char))
    (_ha : ∀ line ∈ ls, ∀ c ∈ line, asciiChar c = true)
    (h : ∀ line ∈ ls, ((pyWords (pyStrip line)).mapM pyInt?).isSome = true →
      ∀ tok ∈ (pyWords (pyStrip line)).dropLast, pyInt? tok ≠ some 0) :
    ∀ C ∈ parseCnfLines ls, (0:ℤ) ∉ C := by
  intro C hC h0
  rcases List.mem_filterMap.mp hC with ⟨line, hline, hp⟩
  rcases parseLine_some hp with ⟨lits, hm, hne, hcase⟩
  have hsome : ((pyWords (pyStrip line)).mapM pyInt?).isSome = true := by
    rw [hm]; rfl
  rcases hcase with ⟨hlast, rfl⟩ | ⟨hcond, rfl⟩
  · rcases mapM_dropLast_mem pyInt? 0 _ _ hm h0 with ⟨tok, htok, hptok⟩
    exact h line hline hsome tok htok hptok
  · rcases mem_dropLast_or_getLast h0 with hdl | hgl
    · rcases mapM_dropLast_mem pyInt? 0 _ _ hm hdl with ⟨tok, htok, hptok⟩
      exact h line hline hsome tok htok hptok
    · refine hcond ⟨?_, hgl⟩
      intro hl
      rw [hl] at h0
      cases h0

/-- Witness for C8 on the input consisting of a comment line and the
well-formed data line `1 2 0` (whose stored clause is `[1, 2]`). -/
theorem c8_witness : (0:ℤ) ∉ ([1, 2] : List ℤ) :=
  c8_parser_no_zero [['c', ' ', '0', ' ', 'x'], ['1', ' ', '2', ' ', '0']]
    (by decide) (by decide) [1, 2] (by decide)

/-! ### Claim C7 support: the DP elimination loop -/

theorem mem_litUniv {F : List (Finset ℤ)} {x : ℤ} :
    x ∈ litUniv F ↔ ∃ c ∈ F, x ∈ c := by
  induction F with
  | nil => simp [litUniv]
  | cons c F ih =>
    have hrw : litUniv (c :: F) = litUniv F ∪ c := rfl
    rw [hrw]
    constructor
    · intro h
      rcases Finset.mem_union.mp h with h1 | h2
      · rcases ih.mp h1 with ⟨d, hd, hx⟩
        exact ⟨d, List.mem_cons_of_mem _ hd, hx⟩
      · exact ⟨c, List.mem_cons_self _ _, h2⟩
    · rintro ⟨d, hd, hx⟩
      rw [Finset.mem_union]
      rcases List.mem_cons.mp hd with rfl | hd'
      · exact Or.inr hx
      · exact Or.inl (ih.mpr ⟨d, hd', hx⟩)

theorem mem_dpVars {F : List (Finset ℤ)} {v : ℤ} :
    v ∈ dpVars F ↔ ∃ c ∈ F, ∃ l ∈ c, |l| = v := by
  simp only [dpVars, Finset.mem_image]
  constructor
  · rintro ⟨l, hl, rfl⟩
    rcases mem_litUniv.mp hl with ⟨c, hc, hlc⟩
    exact ⟨c, hc, l, hlc, rfl⟩
  · rintro ⟨c, hc, l, hlc, rfl⟩
    exact ⟨l, mem_litUniv.mpr ⟨c, hc, hlc⟩, rfl⟩

theorem ascListFuel_sub : ∀ (n : Nat) (s : Finset ℤ), ∀ x ∈ ascListFuel n s, x ∈ s := by
  intro n
  induction n with
  | zero => intro s x hx; cases hx
  | succ n ih =>
    intro s x hx
    rw [ascListFuel] at hx
    split at hx
    · rcases List.mem_cons.mp hx with rfl | h2
      · exact Finset.min'_mem _ _
      · exact Finset.mem_of_mem_erase (ih _ x h2)
    · cases hx

theorem mem_ascListFuel : ∀ (n : Nat) (s : Finset ℤ), s.card ≤ n →
    ∀ x ∈ s, x ∈ ascListFuel n s := by
  intro n
  induction n with
  | zero =>
    intro s hc x hx
    rw [Nat.le_zero] at hc
    rw [Finset.card_eq_zero] at hc
    subst hc
    cases hx
  | succ n ih =>
    intro s hc x hx
    rw [ascListFuel]
    rw [dif_pos ⟨x, hx⟩]
    by_cases hm : x = s.min' ⟨x, hx⟩
    · rw [← hm]; exact List.mem_cons_self _ _
    · refine List.mem_cons_of_mem _ (ih _ ?_ x (Finset.mem_erase.mpr ⟨hm, hx⟩))
      rw [Finset.card_erase_of_mem (Finset.min'_mem _ _)]
      omega

theorem dpLoopRounds_le : ∀ (vs : List ℤ) (G : List (Bool × Finset ℤ)),
    dpLoopRounds vs G ≤ vs.length := by
  intro vs
  induction vs with
  | nil => intro G; exact Nat.le_refl 0
  | cons v vs ih =>
    intro G
    rw [dpLoopRounds]
    split
    · simp
    · have := ih (dpRound v G)
      simp only [List.length_cons]
      omega

theorem ascListFuel_length : ∀ (n : Nat) (s : Finset ℤ),
    (ascListFuel n s).length ≤ n := by
  intro n
  induction n with
  | zero => intro s; exact Nat.le_refl 0
  | succ n ih =>
    intro s
    rw [ascListFuel]
    split
    · simpa using Nat.succ_le_succ (ih _)
    · simp

theorem dpResolve_some {c1 c2 : Finset ℤ} {v : ℤ} {r : Finset ℤ}
    (h : dpResolve c1 c2 v = some r) :
    r = c1.erase v ∪ c2.erase (-v) ∧ ¬ isTaut r := by
  unfold dpResolve at h
  by_cases ht : isTaut (c1.erase v ∪ c2.erase (-v))
  · rw [if_pos ht] at h; cases h
  · rw [if_neg ht] at h
    cases Option.some.inj h
    exact ⟨rfl, ht⟩

theorem mem_dpRound {v : ℤ} {G : List (Bool × Finset ℤ)} {c : Bool × Finset ℤ} :
    c ∈ dpRound v G ↔
      (c ∈ G ∧ v ∉ c.2 ∧ -v ∉ c.2) ∨
      (∃ c1 ∈ G, ∃ c2 ∈ G, v ∈ c1.2 ∧ -v ∈ c2.2 ∧
        ∃ r, dpResolve c1.2 c2.2 v = some r ∧ c = (true, r)) := by
  simp only [dpRound, List.mem_append, List.mem_filter, List.mem_flatMap,
    List.mem_filterMap, Option.map_eq_some', Bool.and_eq_true, decide_eq_true_eq]
  constructor
  · rintro (⟨hcG, hv, hnv⟩ | ⟨c1, hc1, c2, hc2, r, hres, hco⟩)
    · exact Or.inl ⟨hcG, hv, hnv⟩
    · exact Or.inr ⟨c1, hc1.1, c2, hc2.1, hc1.2, hc2.2, r, hres, hco.symm⟩
  · rintro (⟨hcG, hv, hnv⟩ | ⟨c1, hc1, c2, hc2, hv1, hv2, r, hres, hco⟩)
    · exact Or.inl ⟨hcG, hv, hnv⟩
    · exact Or.inr ⟨c1, ⟨hc1, hv1⟩, c2, ⟨hc2, hv2⟩, r, hres, hco.symm⟩

/-- Invariant of the DP loop on tautology-free input: worklist entries are
nonnegative, all clauses stay tautology-free, and every variable occurring
in the formula is still on the remaining worklist (no resolvent
reintroduces an eliminated variable). -/
theorem dpState_inv {F : List (Finset ℤ)} (hnt : ∀ c ∈ F, ¬ isTaut c) :
    ∀ {vs : List ℤ} {G : List (Bool × Finset ℤ)}, DpState F vs G →
      (∀ x ∈ vs, 0 ≤ x) ∧ (∀ c ∈ G, ¬ isTaut c.2) ∧
      (∀ c ∈ G, ∀ l ∈ c.2, |l| ∈ vs) := by
  intro vs G h
  induction h with
  | init =>
    refine ⟨?_, ?_, ?_⟩
    · intro x hx
      rcases mem_dpVars.mp (ascListFuel_sub _ _ x hx) with ⟨c, _, l, _, hxl⟩
      rw [← hxl]
      exact abs_nonneg l
    · intro c hc
      rcases List.mem_map.mp hc with ⟨d, hd, rfl⟩
      exact hnt d hd
    · intro c hc l hl
      rcases List.mem_map.mp hc with ⟨d, hd, rfl⟩
      exact mem_ascListFuel _ _ (Nat.le_refl _) _ (mem_dpVars.mpr ⟨d, hd, l, hl, rfl⟩)
  | @step v vs G hprev hne ih =>
    obtain ⟨hvs, hnt2, hvars⟩ := ih
    have hv0 : (0:ℤ) ≤ v := hvs v (List.mem_cons_self _ _)
    refine ⟨fun x hx => hvs x (List.mem_cons_of_mem _ hx), ?_, ?_⟩
    · intro c hc
      rcases mem_dpRound.mp hc with ⟨hcG, _, _⟩ | ⟨c1, _, c2, _, _, _, r, hres, rfl⟩
      · exact hnt2 c hcG
      · exact (dpResolve_some hres).2
    · intro c hc l hl
      rcases mem_dpRound.mp hc with ⟨hcG, hnv, hnnv⟩ |
          ⟨c1, hc1, c2, hc2, hv1, hv2, r, hres, rfl⟩
      · have hmem := hvars c hcG l hl
        rcases List.mem_cons.mp hmem with habs | h2
        · exfalso
          rcases (abs_eq hv0).mp habs with rfl | rfl
          · exact hnv hl
          · exact hnnv hl
        · exact h2
      · rcases dpResolve_some hres with ⟨hr, _⟩
        rw [hr] at hl
        rcases Finset.mem_union.mp hl with h1 | h1
        · have hl1 : l ∈ c1.2 := (Finset.mem_erase.mp h1).2
          have hlnv : l ≠ v := (Finset.mem_erase.mp h1).1
          have hlnnv : ¬ l = -v := by
            intro hle
            exact hnt2 c1 hc1 ⟨l, hl1, by rw [hle, neg_neg]; exact hv1⟩
          have hmem := hvars c1 hc1 l hl1
          rcases List.mem_cons.mp hmem with habs | h2
          · exfalso
            rcases (abs_eq hv0).mp habs with h3 | h3
            · exact hlnv h3
            · exact hlnnv h3
          · exact h2
        · have hl1 : l ∈ c2.2 := (Finset.mem_erase.mp h1).2
          have hlnnv : l ≠ -v := (Finset.mem_erase.mp h1).1
          have hlnv : ¬ l = v := by
            intro hle
            exact hnt2 c2 hc2 ⟨-v, hv2, by rw [neg_neg, ← hle]; exact hl1⟩
          have hmem := hvars c2 hc2 l hl1
          rcases List.mem_cons.mp hmem with habs | h2
          · exfalso
            rcases (abs_eq hv0).mp habs with h3 | h3
            · exact hlnv h3
            · exact hlnnv h3
          · exact h2

/-! ## Claim theorems (DP loop shape) -/

/-- C7 counterexample: with a tautological input clause, `dp`'s resolvent
can reintroduce an eliminated variable.  On `[[1,-1,2],[-1,3]]` the first
round (pivot `1`, remaining worklist `[2,3]`) produces the resolvent
`{-1,2,3}`, which still mentions variable `1`. -/
theorem c7_counterexample :
    dpWorklist (dpVars (toSets [[1, -1, 2], [-1, 3]])) = [1, 2, 3] ∧
      ∃ c ∈ dpRound 1 ((toSets [[1, -1, 2], [-1, 3]]).map (fun c => (false, c))),
        c.1 = true ∧ (-1 : ℤ) ∈ c.2 :=
  ⟨by decide, by decide⟩

/-- C7 (amended): for every input Formula, `dp` terminates after at most
`|variables|` elimination rounds — the worklist is computed once at entry
and each round removes exactly one variable from it — and, provided no
input clause is a tautology, no resolvent ever reintroduces a variable
outside the remaining worklist (every variable occurring in any reachable
formula is still on the remaining worklist). -/
theorem c7_dp_rounds_bound (F : List (Finset ℤ)) :
    dpLoopRounds (dpWorklist (dpVars F)) (F.map (fun c => (false, c))) ≤
      (dpVars F).card ∧
    ((∀ c ∈ F, ¬ isTaut c) →
      ∀ vs G, DpState F vs G → ∀ c ∈ G, ∀ l ∈ c.2, |l| ∈ vs) := by
  constructor
  · exact Nat.le_trans (dpLoopRounds_le _ _) (ascListFuel_length _ _)
  · intro hnt vs G h
    exact (dpState_inv hnt h).2.2

/-- Witness for C7 on the tautology-free formula `[[1,2],[-1]]`: the round
bound at that input, and — instantiating the no-reintroduction part at the
initial state, the clause `{1,2}` and its literal `1` — variable `1` is on
the initial worklist. -/
theorem c7_witness :
    dpLoopRounds (dpWorklist (dpVars (toSets [[1, 2], [-1]])))
        ((toSets [[1, 2], [-1]]).map (fun c => (false, c))) ≤
      (dpVars (toSets [[1, 2], [-1]])).card ∧
    |(1 : ℤ)| ∈ dpWorklist (dpVars (toSets [[1, 2], [-1]])) :=
  ⟨(c7_dp_rounds_bound (toSets [[1, 2], [-1]])).1,
   (c7_dp_rounds_bound (toSets [[1, 2], [-1]])).2 (by decide)
     (dpWorklist (dpVars (toSets [[1, 2], [-1]])))
     ((toSets [[1, 2], [-1]]).map (fun c => (false, c)))
     DpState.init (false, ([1, 2] : List ℤ).toFinset) (by decide) 1 (by decide)⟩

/-! ### Resolution loop: basic facts and fuel sufficiency -/

/-- Anatomy of a successful `resolve_clauses`: some clashing pivot, both
pivot literals removed, and the result is not a tautology. -/
theorem resolveClauses_some {c1 c2 : Finset ℤ} {r : Finset ℤ}
    (h : resolveClauses c1 c2 = some r) :
    ∃ l ∈ c1, -l ∈ c2 ∧ r = (c1 ∪ c2) \ ({l, -l} : Finset ℤ) ∧ ¬ isTaut r := by
  unfold resolveClauses at h
  by_cases hne : (c1.filter (fun l => decide (-l ∈ c2))).Nonempty
  · rw [dif_pos hne] at h
    have hmem := Finset.min'_mem _ hne
    rw [Finset.mem_filter] at hmem
    by_cases ht : isTaut ((c1 ∪ c2) \
        ({(c1.filter (fun l => decide (-l ∈ c2))).min' hne,
          -(c1.filter (fun l => decide (-l ∈ c2))).min' hne} : Finset ℤ))
    · rw [if_pos ht] at h
      cases h
    · rw [if_neg ht] at h
      cases Option.some.inj h
      exact ⟨_, hmem.1, by simpa using hmem.2, rfl, ht⟩
  · rw [dif_neg hne] at h
    cases h

theorem resolveClauses_sub {c1 c2 : Finset ℤ} {r : Finset ℤ}
    (h : resolveClauses c1 c2 = some r) : r ⊆ c1 ∪ c2 := by
  rcases resolveClauses_some h with ⟨l, _, _, rfl, _⟩
  exact Finset.sdiff_subset

/-- Membership in the freshly produced resolvent set. -/
theorem mem_newResolvents {S : Finset (Finset ℤ)} {r : Finset ℤ} :
    r ∈ newResolvents S ↔
      ∃ c1 ∈ S, ∃ c2 ∈ S, c1 ≠ c2 ∧ resolveClauses c1 c2 = some r ∧ r ≠ ∅ := by
  unfold newResolvents
  constructor
  · intro h
    rcases Finset.mem_biUnion.mp h with ⟨c1, hc1, h2⟩
    rcases Finset.mem_biUnion.mp h2 with ⟨c2, hc2, h3⟩
    by_cases he : c1 = c2
    · rw [if_pos he] at h3
      exact absurd h3 (Finset.not_mem_empty r)
    · rw [if_neg he] at h3
      cases hres : resolveClauses c1 c2 with
      | none =>
        simp only [hres] at h3
        exact absurd h3 (Finset.not_mem_empty r)
      | some q =>
        simp only [hres] at h3
        by_cases hqe : q = ∅
        · rw [if_pos hqe] at h3
          exact absurd h3 (Finset.not_mem_empty r)
        · rw [if_neg hqe] at h3
          rcases Finset.mem_singleton.mp h3 with rfl
          exact ⟨c1, hc1, c2, hc2, he, hres, hqe⟩
  · rintro ⟨c1, hc1, c2, hc2, he, hres, hne⟩
    refine Finset.mem_biUnion.mpr ⟨c1, hc1, Finset.mem_biUnion.mpr ⟨c2, hc2, ?_⟩⟩
    rw [if_neg he]
    simp only [hres]
    rw [if_neg hne]
    exact Finset.mem_singleton_self r

/-- Fuel sufficiency for the saturation loop: the known set grows strictly
inside the powerset of a finite literal universe. -/
theorem resLoopFuel_isSome (U : Finset ℤ) :
    ∀ (n : Nat) (S : Finset (Finset ℤ)), (∀ c ∈ S, c ⊆ U) →
      2 ^ U.card < n + S.card → (resLoopFuel n S).isSome := by
  intro n
  induction n with
  | zero =>
    intro S hsub hn
    exfalso
    have hS : S ⊆ U.powerset := fun c hc => Finset.mem_powerset.mpr (hsub c hc)
    have := Finset.card_le_card hS
    rw [Finset.card_powerset] at this
    omega
  | succ n ih =>
    intro S hsub hn
    rw [resLoopFuel]
    by_cases hpe : producedEmpty S
    · rw [if_pos hpe]; simp
    · rw [if_neg hpe]
      by_cases hss : newResolvents S ⊆ S
      · rw [if_pos hss]; simp
      · rw [if_neg hss]
        have hsub2 : ∀ c ∈ S ∪ newResolvents S, c ⊆ U := by
          intro c hc
          rcases Finset.mem_union.mp hc with h1 | h1
          · exact hsub c h1
          · rcases mem_newResolvents.mp h1 with ⟨c1, hc1, c2, hc2, _, hres, _⟩
            intro x hx
            rcases Finset.mem_union.mp (resolveClauses_sub hres hx) with hx1 | hx1
            · exact hsub c1 hc1 hx1
            · exact hsub c2 hc2 hx1
        have hcard : S.card < (S ∪ newResolvents S).card := by
          refine Finset.card_lt_card ⟨Finset.subset_union_left, ?_⟩
          intro hcon
          exact hss (fun x hx => hcon (Finset.mem_union_right _ hx))
        have := ih (S ∪ newResolvents S) hsub2 (by omega)
        exact this

theorem knownInit_sub_univ (F : List (Finset ℤ)) :
    ∀ c ∈ knownInit F, c ⊆ litUniv F := by
  intro c hc x hx
  exact mem_litUniv.mpr ⟨c, List.mem_toFinset.mp hc, hx⟩

/-- The saturation loop, with the fuel `resolution` uses, always yields a
verdict. -/
theorem resolution_eq_fuel (F : List (Finset ℤ)) :
    resLoopFuel (2 ^ (litUniv F).card + 1) (knownInit F) = some (resolution F) := by
  have hs := resLoopFuel_isSome (litUniv F) (2 ^ (litUniv F).card + 1)
    (knownInit F) (knownInit_sub_univ F) (by omega)
  rcases Option.isSome_iff_exists.mp hs with ⟨b, hb⟩
  rw [hb]
  unfold resolution
  rw [hb]
  rfl

/-! ### Claim C6: monotone growth of the known set, and the SAT exit -/

theorem resKnownIter_mono_step (F : List (Finset ℤ)) (k : Nat) :
    resKnownIter F k ⊆ resKnownIter F (k + 1) := by
  rw [show resKnownIter F (k + 1) =
      (if producedEmpty (resKnownIter F k) then resKnownIter F k
       else if newResolvents (resKnownIter F k) ⊆ resKnownIter F k
       then resKnownIter F k
       else resKnownIter F k ∪ newResolvents (resKnownIter F k)) from rfl]
  split
  · exact Finset.Subset.refl _
  · split
    · exact Finset.Subset.refl _
    · exact Finset.subset_union_left

theorem resKnownIter_mono (F : List (Finset ℤ)) :
    ∀ {k m : Nat}, k ≤ m → resKnownIter F k ⊆ resKnownIter F m := by
  intro k m h
  induction h with
  | refl => exact Finset.Subset.refl _
  | step h2 ih =>
    exact Finset.Subset.trans ih (resKnownIter_mono_step F _)

/-- Once an iterate would exit the loop (empty resolvent derived, or
fixpoint), all later iterates are identical. -/
theorem resKnownIter_frozen (F : List (Finset ℤ)) {k : Nat}
    (h : producedEmpty (resKnownIter F k)) :
    ∀ m, k ≤ m → resKnownIter F m = resKnownIter F k := by
  intro m hm
  induction hm with
  | refl => rfl
  | @step m2 h2 ih =>
    rw [show resKnownIter F (m2 + 1) =
        (if producedEmpty (resKnownIter F m2) then resKnownIter F m2
         else if newResolvents (resKnownIter F m2) ⊆ resKnownIter F m2
         then resKnownIter F m2
         else resKnownIter F m2 ∪ newResolvents (resKnownIter F m2)) from rfl]
    rw [ih, if_pos h]

theorem resLoopFuel_true_exit (F : List (Finset ℤ)) :
    ∀ (n k : Nat), resLoopFuel n (resKnownIter F k) = some true →
      ∃ j, ¬ producedEmpty (resKnownIter F j) ∧
        newResolvents (resKnownIter F j) ⊆ resKnownIter F j := by
  intro n
  induction n with
  | zero => intro k h; cases h
  | succ n ih =>
    intro k h
    rw [resLoopFuel] at h
    by_cases hpe : producedEmpty (resKnownIter F k)
    · rw [if_pos hpe] at h
      cases Option.some.inj h
    · rw [if_neg hpe] at h
      by_cases hss : newResolvents (resKnownIter F k) ⊆ resKnownIter F k
      · exact ⟨k, hpe, hss⟩
      · rw [if_neg hss] at h
        have hnext : resKnownIter F (k + 1) =
            resKnownIter F k ∪ newResolvents (resKnownIter F k) := by
          rw [show resKnownIter F (k + 1) =
              (if producedEmpty (resKnownIter F k) then resKnownIter F k
               else if newResolvents (resKnownIter F k) ⊆ resKnownIter F k
               then resKnownIter F k
               else resKnownIter F k ∪ newResolvents (resKnownIter F k)) from rfl]
          rw [if_neg hpe, if_neg hss]
        rw [← hnext] at h
        exact ih (k + 1) h

theorem resLoopFuel_of_exit (F : List (Finset ℤ)) {k : Nat}
    (hx : ¬ producedEmpty (resKnownIter F k) ∧
      newResolvents (resKnownIter F k) ⊆ resKnownIter F k) :
    ∀ (n j : Nat), j ≤ k → (resLoopFuel n (resKnownIter F j)).isSome →
      resLoopFuel n (resKnownIter F j) = some true := by
  intro n
  induction n with
  | zero =>
    intro j hj hsome
    rw [resLoopFuel] at hsome
    cases hsome
  | succ n ih =>
    intro j hj hsome
    by_cases hpe : producedEmpty (resKnownIter F j)
    · exfalso
      have := resKnownIter_frozen F hpe k hj
      rw [this] at hx
      exact hx.1 hpe
    · by_cases hss : newResolvents (resKnownIter F j) ⊆ resKnownIter F j
      · rw [resLoopFuel, if_neg hpe, if_pos hss]
      · have hnext : resKnownIter F (j + 1) =
            resKnownIter F j ∪ newResolvents (resKnownIter F j) := by
          rw [show resKnownIter F (j + 1) =
              (if producedEmpty (resKnownIter F j) then resKnownIter F j
               else if newResolvents (resKnownIter F j) ⊆ resKnownIter F j
               then resKnownIter F j
               else resKnownIter F j ∪ newResolvents (resKnownIter F j)) from rfl]
          rw [if_neg hpe, if_neg hss]
        have hjk : j + 1 ≤ k := by
          rcases Nat.lt_or_ge j k with h1 | h1
          · omega
          · exfalso
            have hje : j = k := Nat.le_antisymm hj h1
            rw [hje] at hss
            exact hss hx.2
        rw [resLoopFuel, if_neg hpe, if_neg hss] at hsome ⊢
        rw [← hnext] at hsome ⊢
        exact ih (j + 1) hjk hsome

/-! ## Claim theorems (C6, C2, C1 counterexample) -/

/-- C6 counterexample: on the input `[∅, {1}, {-1}]` the first iteration
produces no resolvent outside the known set — its only resolvent is the
empty clause, which is already a known (input) clause — and yet the loop
returns UNSAT, not SAT. -/
theorem c6_counterexample :
    newResolvents (knownInit (toSets [[], [1], [-1]])) ⊆
        knownInit (toSets [[], [1], [-1]]) ∧
      (∅ : Finset ℤ) ∈ knownInit (toSets [[], [1], [-1]]) ∧
      producedEmpty (knownInit (toSets [[], [1], [-1]])) ∧
      resolution (toSets [[], [1], [-1]]) = false := by decide

/-- C6 (amended): the known-clause set only grows — once known, a clause is
in every later iterate — and the loop returns SAT exactly when some
iteration derives no empty-clause resolvent and every resolvent it produces
is already known. -/
theorem c6_monotone_fixpoint (F : List (Finset ℤ)) :
    (∀ k m : Nat, k ≤ m → resKnownIter F k ⊆ resKnownIter F m) ∧
    (resolution F = true ↔ ∃ k, ¬ producedEmpty (resKnownIter F k) ∧
      newResolvents (resKnownIter F k) ⊆ resKnownIter F k) := by
  refine ⟨fun k m h => resKnownIter_mono F h, ?_, ?_⟩
  · intro htrue
    have heq := resolution_eq_fuel F
    rw [htrue] at heq
    exact resLoopFuel_true_exit F _ 0 heq
  · rintro ⟨k, hk⟩
    have hsome : (resLoopFuel (2 ^ (litUniv F).card + 1) (knownInit F)).isSome := by
      rw [resolution_eq_fuel F]
      rfl
    have hrun := resLoopFuel_of_exit F hk (2 ^ (litUniv F).card + 1) 0
      (Nat.zero_le k) hsome
    have h2 := resolution_eq_fuel F
    exact Option.some.inj (h2.symm.trans hrun)

/-- Witness for C6 on the input `[[1], [-1]]`. -/
theorem c6_witness :
    resKnownIter (toSets [[1], [-1]]) 0 ⊆ resKnownIter (toSets [[1], [-1]]) 1 ∧
      (resolution (toSets [[1], [-1]]) = true ↔
        ∃ k, ¬ producedEmpty (resKnownIter (toSets [[1], [-1]]) k) ∧
          newResolvents (resKnownIter (toSets [[1], [-1]]) k) ⊆
            resKnownIter (toSets [[1], [-1]]) k) :=
  ⟨(c6_monotone_fixpoint (toSets [[1], [-1]])).1 0 1 (by omega),
   (c6_monotone_fixpoint (toSets [[1], [-1]])).2⟩

/-- C2 (code bug): on the formula whose only clause is the empty clause,
`dpll` correctly answers UNSAT, but `dp` and `resolution` both answer SAT:
`dp`'s `[] in formula` test never matches a `set()` input clause and is
only checked inside the elimination loop, and `resolution` only reports
UNSAT for an empty *resolvent*, never for an input empty clause. -/
theorem c2_empty_clause_eval :
    dpll [[]] [] = (false, none) ∧ dp (toSets [[]]) = true ∧
      resolution (toSets [[]]) = true := by decide

/-- C3 (code bug): resolution.py line 35 seeds the known set with ALL input
clauses — no tautology filter, unlike the spec's non-tautological seed — and
as a consequence the engine is unsound on tautological inputs: the
tautological clause `{1, -1}` resolves with `{-1}` to the empty clause (the
tautology check guards the *resolvent*, which is empty here, not the
parents), so on the satisfiable formula `[{1,-1}, {-1}]` the engine answers
UNSAT. -/
theorem c3_tautology_seed_unsound :
    knownInit (toSets [[1, -1], [-1]]) ≠ specNonTautSeed (toSets [[1, -1], [-1]]) ∧
      isTaut ([1, -1] : List ℤ).toFinset ∧
      resolution (toSets [[1, -1], [-1]]) = false ∧
      Sat (toSets [[1, -1], [-1]]) := by
  refine ⟨by decide, by decide, by decide, ⟨fun _ => false, ?_⟩⟩
  intro c hc
  simp only [toSets, List.map, List.mem_cons, List.not_mem_nil, or_false] at hc
  rcases hc with h | h <;> subst h <;> exact ⟨-1, by decide, by decide⟩

/-- C1 (code bug): the three engines do not return the same verdict on every
well-formed Formula. On `[∅]` (one empty clause, no literal `0`), `dp` and
`resolution` answer SAT while `dpll` answers UNSAT; on the satisfiable
formula `[{1,-1}, {-1}]`, `resolution` answers UNSAT while `dp` and `dpll`
answer SAT. -/
theorem c1_engines_disagree :
    (dp (toSets [[]]) ≠ (dpll [[]] []).1 ∧
      resolution (toSets [[]]) ≠ (dpll [[]] []).1) ∧
      (resolution (toSets [[1, -1], [-1]]) ≠ dp (toSets [[1, -1], [-1]]) ∧
        resolution (toSets [[1, -1], [-1]]) ≠ (dpll [[1, -1], [-1]] []).1) := by
  decide

end SatSolve